import Mathlib

/-!
Verification of the markrealm static-documentation generator.

JavaScript strings are modelled as lists of characters (`JStr`), JS `Map`s as
insertion-ordered association lists, and the file system / network as explicit
environment functions.  Every definition is translated from the TypeScript
source; the file and function each definition comes from is named in its doc
comment.
-/

/-- JavaScript string, modelled as a list of characters. -/
abbrev JStr := List Char

/-- Characters of a Lean string literal, used to write JS string literals. -/
def lit (s : String) : JStr := s.data

/-- `s.split(sep)` for a single-character separator: JS `String.prototype.split`.
Always returns a non-empty list; splitting the empty string gives `[""]`. -/
def splitOnChar (sep : Char) : JStr → List JStr
  | [] => [[]]
  | c :: rest =>
    match splitOnChar sep rest with
    | [] => [[c]]
    | h :: t => if c = sep then [] :: h :: t else (c :: h) :: t

/-- `parts.join(sep)` for a single-character separator. -/
def joinChar (sep : Char) : List JStr → JStr
  | [] => []
  | [s] => s
  | s :: t :: rest => s ++ sep :: joinChar sep (t :: rest)

/-- JS `s.startsWith(pre)`. -/
def jsStartsWith (s pre : JStr) : Bool := s.take pre.length == pre

/-- JS `s.endsWith(suf)`. -/
def jsEndsWith (s suf : JStr) : Bool := s.drop (s.length - suf.length) == suf

/-- JS `s.includes(sub)`: `sub` occurs as a contiguous substring of `s`. -/
def jsIncludes (s sub : JStr) : Bool :=
  (List.range (s.length + 1)).any fun k => jsStartsWith (s.drop k) sub

/-- Node `path.relative(fromP, toP)` (posix) for already-resolved absolute
paths: split both on `/`, drop empty components, remove the common prefix,
and prepend one `..` per remaining component of `fromP`. -/
def pathRelative (fromP toP : JStr) : JStr :=
  let fromParts := (splitOnChar '/' fromP).filter (· ≠ [])
  let toParts := (splitOnChar '/' toP).filter (· ≠ [])
  let common := (List.zip fromParts toParts).takeWhile (fun p => p.1 = p.2) |>.length
  joinChar '/' (List.replicate (fromParts.length - common) (lit "..") ++ toParts.drop common)

/-- Node `path.basename(p)` (posix): the last non-empty path component,
ignoring trailing slashes; empty when there is none. -/
def pathBasename (p : JStr) : JStr :=
  ((splitOnChar '/' p).filter (· ≠ [])).getLastD []

/-- Node `path.dirname(p)` (posix): scan from the end, skip trailing slashes,
then cut at the previous slash (never at index 0). -/
def pathDirname (p : JStr) : JStr :=
  let hasRoot := p.take 1 == lit "/"
  let rev := p.reverse
  let rev1 := rev.dropWhile (· = '/')
  let rev2 := rev1.dropWhile (· ≠ '/')
  match rev2 with
  | [] => if hasRoot then lit "/" else lit "."
  | _ :: rest =>
    if rest = [] then (if hasRoot then lit "/" else lit ".")
    else if hasRoot ∧ rest.reverse = lit "/" then lit "//"
    else rest.reverse

/-- Node `path.join(a, b)` for a non-empty `a` with no trailing slash. -/
def pathJoin (a b : JStr) : JStr := a ++ '/' :: b

/-- `relativePath.replace(/\.(md|mdoc)$/, "")` from `generateRoute`
(src/content/loader.ts): strip one trailing `.mdoc`, else one trailing `.md`. -/
def stripMarkupExt (s : JStr) : JStr :=
  if jsEndsWith s (lit ".mdoc") then s.take (s.length - 5)
  else if jsEndsWith s (lit ".md") then s.take (s.length - 3)
  else s

/-- `generateRoute(filePath, docsDir)` from src/content/loader.ts: relativize,
strip the markup extension, and map `index` files to their directory route. -/
def generateRoute (filePath docsDir : JStr) : JStr :=
  let relativePath := pathRelative docsDir filePath
  let pathWithoutExt := stripMarkupExt relativePath
  if pathBasename pathWithoutExt = lit "index" then
    let dir := pathDirname pathWithoutExt
    if dir = lit "." then lit "/" else '/' :: dir
  else '/' :: pathWithoutExt


/-! ## JS `Map` model: insertion-ordered association list -/

/-- A JS `Map` with `JStr` keys: an insertion-ordered list of key/value
entries.  `set` replaces the value in place when the key exists, else appends;
`delete` removes the entry; `size` is the number of entries. -/
structure JSMap (α : Type) where
  entries : List (JStr × α)
deriving Repr

namespace JSMap

/-- The empty map (`new Map()`). -/
def empty : JSMap α := ⟨[]⟩

/-- `m.get(k)`. -/
def get (m : JSMap α) (k : JStr) : Option α :=
  (m.entries.find? fun e => e.1 == k).map (·.2)

/-- Entry list after `m.set(k, v)`: replace the entry of `k` in place when
present (a `Map` holds one entry per key), else append. -/
def setEntries (k : JStr) (v : α) : List (JStr × α) → List (JStr × α)
  | [] => [(k, v)]
  | e :: t => if e.1 == k then (k, v) :: t else e :: setEntries k v t

/-- `m.set(k, v)`. -/
def set (m : JSMap α) (k : JStr) (v : α) : JSMap α :=
  ⟨setEntries k v m.entries⟩

/-- `m.delete(k)`. -/
def del (m : JSMap α) (k : JStr) : JSMap α :=
  ⟨m.entries.filter fun e => !(e.1 == k)⟩

/-- `m.size`. -/
def size (m : JSMap α) : Nat := m.entries.length

/-- `Array.from(m.values())`. -/
def values (m : JSMap α) : List α := m.entries.map (·.2)

end JSMap

/-! ## Data model (src/content/types.ts) -/

/-- A front-matter value (`Record<string, any>` leaf), kept simple. -/
inductive JValue where
  | str (s : JStr)
  | num (n : Int)
  | boolean (b : Bool)
  | null
deriving Repr, DecidableEq

/-- `Heading` from src/content/types.ts. -/
structure Heading where
  level : Nat
  text : JStr
  id : JStr
deriving Repr, DecidableEq

/-- Link type discriminator: `"internal" | "external"`. -/
inductive LinkType where
  | internal
  | external
deriving Repr, DecidableEq

/-- `Link` from src/content/types.ts.  `target` and `hash` are the optional
fields of the interface. -/
structure Link where
  href : JStr
  text : JStr
  type : LinkType
  target : Option JStr := none
  hash : Option JStr := none
deriving Repr, DecidableEq

/-- `DocMeta` from src/content/types.ts. -/
structure DocMeta where
  path : JStr
  route : JStr
  title : JStr
  headings : List Heading
  frontMatter : List (JStr × JValue)
  links : List Link
  html : JStr
deriving Repr, DecidableEq

/-- `ContentIndex` from src/content/types.ts: the dual-keyed map pair. -/
structure ContentIndex where
  byRoute : JSMap DocMeta
  byPath : JSMap DocMeta
deriving Repr

/-- Result of `renderMarkdocToHtml` (src/content/markdoc.ts). -/
structure MarkdocResult where
  html : JStr
  frontMatter : List (JStr × JValue)
  headings : List Heading
  links : List Link
deriving Repr, DecidableEq

/-! ## Ignore matcher (src/config.ts, `isIgnoredPath`) -/

/-- One atom of the regex obtained from `pattern.replace(/\*/g, ".*")`:
a literal character, `.` (any one character), or `.*` (any run). -/
inductive GAtom where
  | chr (c : Char)
  | any
  | anyRun
deriving Repr, DecidableEq

/-- Translate a pattern to its regex atoms, as `pattern.replace(/\*/g, ".*")`
reads for patterns built from ordinary characters, `.` and `*` (the source
escapes no other regex metacharacter; patterns using further metacharacters
are outside this model). -/
def patternAtoms (p : JStr) : List GAtom :=
  p.map fun c => if c = '*' then .anyRun else if c = '.' then .any else .chr c

/-- Match the atoms against a prefix of `s` (the regex engine may leave a
suffix of `s` unconsumed once the atoms are exhausted). -/
def matchCore : List GAtom → JStr → Bool
  | [], _ => true
  | .chr c :: as, s =>
    match s with
    | [] => false
    | x :: xs => c == x && matchCore as xs
  | .any :: as, s =>
    match s with
    | [] => false
    | _ :: xs => matchCore as xs
  | .anyRun :: as, s => (List.range (s.length + 1)).any fun k => matchCore as (s.drop k)

/-- `new RegExp(...).test(s)`: unanchored — match starting anywhere in `s`. -/
def regexTest (atoms : List GAtom) (s : JStr) : Bool :=
  (List.range (s.length + 1)).any fun k => matchCore atoms (s.drop k)

/-- `isIgnoredPath(filePath, ignorePatterns)` from src/config.ts.  The source
reads `process.cwd()`; here the working directory is the explicit first
argument. -/
def isIgnoredPath (cwd filePath : JStr) (ignorePatterns : List JStr) : Bool :=
  let relativePath := pathRelative cwd filePath
  ignorePatterns.any fun pattern =>
    if pattern.contains '*' then regexTest (patternAtoms pattern) relativePath
    else jsIncludes relativePath pattern

/-! ## Document loader (src/content/loader.ts, guarded variant of part_002) -/

/-- JS truthiness of a front-matter value. -/
def jsTruthy : JValue → Bool
  | .str s => s ≠ []
  | .num n => n ≠ 0
  | .boolean b => b
  | .null => false

/-- The string carried by a front-matter value (titles are strings). -/
def jvalueText : JValue → JStr
  | .str s => s
  | _ => []

/-- `extractTitle` (full markdoc variant, src/build.ts concatenation lines
271–290): front-matter `title` if truthy, else first level-1 heading, else
`"Untitled"`. -/
def extractTitle (frontMatter : List (JStr × JValue)) (headings : List Heading) : JStr :=
  match frontMatter.find? fun e => e.1 == lit "title" with
  | some e =>
    if jsTruthy e.2 then jvalueText e.2
    else match headings.find? fun h => h.level == 1 with
      | some h => h.text
      | none => lit "Untitled"
  | none =>
    match headings.find? fun h => h.level == 1 with
    | some h => h.text
    | none => lit "Untitled"

/-- The file system and rendering collaborator: reading and rendering file
`p` either succeeds with a `MarkdocResult` or fails (unreadable file or a
render throw). -/
abbrev RenderEnv := JStr → Option MarkdocResult

/-- `loadDocument(filePath, docsDir)` from src/content/loader.ts: read and
render the file, derive route and title, and package the `DocMeta`; `none`
on a read or render failure (the catch branch returning `null`). -/
def loadDocument (env : RenderEnv) (filePath docsDir : JStr) : Option DocMeta :=
  (env filePath).map fun result =>
    { path := filePath
      route := generateRoute filePath docsDir
      title := extractTitle result.frontMatter result.headings
      headings := result.headings
      frontMatter := result.frontMatter
      links := result.links
      html := result.html }

/-- Insert a loaded document under both keys (the two `set` calls of
`buildContentIndex` / `updateDocumentInIndex`). -/
def indexInsert (index : ContentIndex) (d : DocMeta) : ContentIndex :=
  { byRoute := index.byRoute.set d.route d
    byPath := index.byPath.set d.path d }

/-- One iteration of the `for (const filePath of files)` loop of
`buildContentIndex`: skip ignored files, insert a successful load, and on a
load failure (caught and logged in the source) leave the index unchanged. -/
def buildStep (env : RenderEnv) (cwd docsDir : JStr) (patterns : List JStr)
    (index : ContentIndex) (filePath : JStr) : ContentIndex :=
  if isIgnoredPath cwd filePath patterns then index
  else
    match loadDocument env filePath docsDir with
    | some d => indexInsert index d
    | none => index

/-- `buildContentIndex(docsDir, ignorePatterns)` from src/content/loader.ts:
fold the per-file step over the discovered file list (the `globby` result is
the explicit `files` argument). -/
def buildContentIndex (env : RenderEnv) (cwd docsDir : JStr) (patterns : List JStr)
    (files : List JStr) : ContentIndex :=
  files.foldl (buildStep env cwd docsDir patterns) ⟨JSMap.empty, JSMap.empty⟩

/-- `updateDocumentInIndex(index, filePath, docsDir, ignorePatterns)` from
src/content/loader.ts: delete any old entry (by old route and by path), stop
if the path is ignored, else reload and re-insert. -/
def updateDocumentInIndex (env : RenderEnv) (index : ContentIndex)
    (filePath docsDir cwd : JStr) (patterns : List JStr) : ContentIndex :=
  let index1 :=
    match index.byPath.get filePath with
    | some oldDoc =>
      { byRoute := index.byRoute.del oldDoc.route
        byPath := index.byPath.del filePath }
    | none => index
  if isIgnoredPath cwd filePath patterns then index1
  else
    match loadDocument env filePath docsDir with
    | some d => indexInsert index1 d
    | none => index1

/-- `removeDocumentFromIndex(index, filePath)` from src/content/loader.ts. -/
def removeDocumentFromIndex (index : ContentIndex) (filePath : JStr) : ContentIndex :=
  match index.byPath.get filePath with
  | some doc =>
    { byRoute := index.byRoute.del doc.route
      byPath := index.byPath.del filePath }
  | none => index

/-! ## Link validator (src/content/links.ts, part_003) -/

/-- `LinkCheckResult` from src/content/links.ts. -/
structure LinkCheckResult where
  broken : List Link
  valid : List Link
  external : List Link
deriving Repr, DecidableEq

/-- The normalization steps of `checkInternalLink` (src/content/links.ts):
ensure a leading `/`, then strip one trailing `/` (`slice(0, -1)`) unless
the target is exactly `/`. -/
def normalizeTarget (t : JStr) : JStr :=
  let targetRoute := if jsStartsWith t (lit "/") then t else '/' :: t
  if jsEndsWith targetRoute (lit "/") ∧ targetRoute ≠ lit "/" then targetRoute.dropLast
  else targetRoute

/-- `checkInternalLink(link, index)` from src/content/links.ts: falsy target
is broken; normalize the target; the route must exist, and a truthy `hash`
must name a heading id of the target document. -/
def checkInternalLink (link : Link) (index : ContentIndex) : Bool :=
  match link.target with
  | none => false
  | some t =>
    if t = [] then false
    else
      match index.byRoute.get (normalizeTarget t) with
      | none => false
      | some targetDoc =>
        match link.hash with
        | some h =>
          if h ≠ [] then targetDoc.headings.any fun heading => heading.id == h
          else true
        | none => true

/-- The loop body of `checkInternalLinks`: externals are collected; internals
are partitioned by `checkInternalLink`. -/
def linkStep (index : ContentIndex) (result : LinkCheckResult) (link : Link) : LinkCheckResult :=
  match link.type with
  | .external => { result with external := result.external ++ [link] }
  | .internal =>
    if checkInternalLink link index then { result with valid := result.valid ++ [link] }
    else { result with broken := result.broken ++ [link] }

/-- `checkInternalLinks(index)` from src/content/links.ts: walk every link of
every document of `byRoute` (in map order). -/
def checkInternalLinks (index : ContentIndex) : LinkCheckResult :=
  index.byRoute.values.foldl (fun r doc => doc.links.foldl (linkStep index) r) ⟨[], [], []⟩

/-- Outcome of one `fetch` call: the request either resolved with an HTTP
status, or threw (network failure, or the abort fired on timeout). -/
abbrev FetchOutcome := Except Unit Nat

/-- `checkSingleExternalLink(url, timeoutMs)` from src/content/links.ts, over
the outcomes of its two possible requests: the HEAD response status decides
via `200 <= s < 400` whenever HEAD resolves; only a thrown HEAD error reaches
the catch block, which retries once with GET under the same status rule and
returns `false` if GET also throws. -/
def checkSingleExternalLink (head get : FetchOutcome) : Bool :=
  match head with
  | .ok status => decide (200 ≤ status ∧ status < 400)
  | .error _ =>
    match get with
    | .ok status => decide (200 ≤ status ∧ status < 400)
    | .error _ => false

/-! ## Link extraction (full markdoc variant, src/build.ts concatenation
lines 322–370) -/

mutual
/-- A Markdoc AST value as `extractLinks` / `extractTextContent` see it:
either a plain string, or a node with a `type`, an optional
`attributes.href.value`, and children.  The forest type makes the mutual
traversal structurally recursive. -/
inductive MarkNode where
  | str (s : JStr)
  | node (ty : JStr) (href : Option JStr) (children : MarkForest)
/-- A list of sibling Markdoc AST values. -/
inductive MarkForest where
  | nil
  | cons (head : MarkNode) (tail : MarkForest)
end

mutual
/-- `extractTextContent(node)`: a string is itself; otherwise concatenate the
text of the children (a node without children yields the empty string). -/
def extractTextContent : MarkNode → JStr
  | .str s => s
  | .node _ _ children => extractTextForest children
/-- `extractTextContent` over a list of children. -/
def extractTextForest : MarkForest → JStr
  | .nil => []
  | .cons n rest => extractTextContent n ++ extractTextForest rest
end

/-- The link-classification block of `extractLinks`: `isInternal` is the
conjunction of the four literal prefix tests; internal links get `target` =
the part of `href` before the first `#` (`target || ""` keeps an empty part
empty) and `hash` = the part between the first and second `#` when truthy. -/
def mkExtractedLink (href text : JStr) : Link :=
  let isInternal :=
    ¬ jsStartsWith href (lit "http") ∧ ¬ jsStartsWith href (lit "//")
      ∧ ¬ jsStartsWith href (lit "mailto:") ∧ ¬ jsStartsWith href (lit "#")
  if isInternal then
    let parts := splitOnChar '#' href
    let target := parts.headD []
    { href := href, text := text, type := .internal
      target := some target
      hash := match parts.get? 1 with
        | some h => if h ≠ [] then some h else none
        | none => none }
  else { href := href, text := text, type := .external }

mutual
/-- `extractLinks(ast)`: depth-first traversal; on a `link` node read
`attributes?.href?.value || ""` and the text content, drop the node (children
included, via the early `return`) when either is empty, else record the link
and keep traversing the children. -/
def extractLinks : MarkNode → List Link
  | .str _ => []
  | .node ty href children =>
    if ty = lit "link" then
      let h := href.getD []
      let t := extractTextContent (.node ty href children)
      if h = [] ∨ t = [] then []
      else mkExtractedLink h t :: extractLinksForest children
    else extractLinksForest children
/-- `extractLinks` over a list of siblings. -/
def extractLinksForest : MarkForest → List Link
  | .nil => []
  | .cons n rest => extractLinks n ++ extractLinksForest rest
end

/-! ## Sidebar builder (src/content/sidebar.ts) -/

mutual
/-- `SidebarItem` from src/content/types.ts; `children` is present exactly
for directory nodes.  The forest type makes recursive sorting structural. -/
inductive SidebarItem where
  | mk (title : JStr) (route : JStr) (children : Option SidebarForest)
/-- A list of sibling sidebar items. -/
inductive SidebarForest where
  | nil
  | cons (head : SidebarItem) (tail : SidebarForest)
end

mutual
/-- Decidable equality of sidebar items. -/
def decEqSidebarItem : (a b : SidebarItem) → Decidable (a = b)
  | .mk t1 r1 none, .mk t2 r2 none =>
    if h1 : t1 = t2 then
      if h2 : r1 = r2 then .isTrue (by rw [h1, h2])
      else .isFalse (by simp [h2])
    else .isFalse (by simp [h1])
  | .mk _ _ none, .mk _ _ (some _) => .isFalse (by simp)
  | .mk _ _ (some _), .mk _ _ none => .isFalse (by simp)
  | .mk t1 r1 (some f1), .mk t2 r2 (some f2) =>
    if h1 : t1 = t2 then
      if h2 : r1 = r2 then
        match decEqSidebarForest f1 f2 with
        | .isTrue h3 => .isTrue (by rw [h1, h2, h3])
        | .isFalse h3 => .isFalse (by simp [h3])
      else .isFalse (by simp [h2])
    else .isFalse (by simp [h1])
/-- Decidable equality of sidebar forests. -/
def decEqSidebarForest : (a b : SidebarForest) → Decidable (a = b)
  | .nil, .nil => .isTrue rfl
  | .nil, .cons _ _ => .isFalse (by simp)
  | .cons _ _, .nil => .isFalse (by simp)
  | .cons i1 f1, .cons i2 f2 =>
    match decEqSidebarItem i1 i2 with
    | .isTrue h1 =>
      match decEqSidebarForest f1 f2 with
      | .isTrue h2 => .isTrue (by rw [h1, h2])
      | .isFalse h2 => .isFalse (by simp [h2])
    | .isFalse h1 => .isFalse (by simp [h1])
end

instance : DecidableEq SidebarItem := decEqSidebarItem

instance : DecidableEq SidebarForest := decEqSidebarForest

/-- Item title. -/
def SidebarItem.title : SidebarItem → JStr
  | .mk t _ _ => t

/-- Item route. -/
def SidebarItem.route : SidebarItem → JStr
  | .mk _ r _ => r

/-- Item children. -/
def SidebarItem.children : SidebarItem → Option SidebarForest
  | .mk _ _ c => c

/-- Forest to list (top level only). -/
def SidebarForest.toList : SidebarForest → List SidebarItem
  | .nil => []
  | .cons i rest => i :: rest.toList

/-- List to forest (top level only). -/
def SidebarForest.ofList : List SidebarItem → SidebarForest
  | [] => .nil
  | i :: rest => .cons i (SidebarForest.ofList rest)

/-- `a.localeCompare(b)` modelled as codepoint-lexicographic comparison
(agrees with the JS locale comparison on the plain ASCII titles used here). -/
def localeCompare : JStr → JStr → Int
  | [], [] => 0
  | [], _ :: _ => -1
  | _ :: _, [] => 1
  | a :: as, b :: bs =>
    if a.val < b.val then -1 else if b.val < a.val then 1 else localeCompare as bs

/-- The comparator of `sortTreeAlphabetically`: directories (items with
`children`) before files, then by title. -/
def cmpItems (a b : SidebarItem) : Int :=
  if a.children.isSome ∧ ¬ b.children.isSome then -1
  else if ¬ a.children.isSome ∧ b.children.isSome then 1
  else localeCompare a.title b.title

/-- Stable insertion of an item into a comparator-sorted forest: place `a`
before the first `b` it compares `≤ 0` against. -/
def forestInsert (a : SidebarItem) : SidebarForest → SidebarForest
  | .nil => .cons a .nil
  | .cons b rest =>
    if cmpItems a b ≤ 0 then .cons a (.cons b rest)
    else .cons b (forestInsert a rest)

mutual
/-- The recursive child sort mapped over the sorted level (the `.map` of
`sortTreeAlphabetically`). -/
def sortItemChildren : SidebarItem → SidebarItem
  | .mk t r none => .mk t r none
  | .mk t r (some cs) => .mk t r (some (sortTreeAlphabetically cs))
/-- `sortTreeAlphabetically(tree)` from src/content/sidebar.ts: the source
runs the (stable) JS `sort` with `cmpItems` and then maps the recursive
child sort over the result.  Here the stable sort is realised as insertion
sort interleaved with the child sort; this equals the source's
sort-then-map because the comparator only reads an item's title and whether
it has children, both of which the child sort preserves. -/
def sortTreeAlphabetically : SidebarForest → SidebarForest
  | .nil => .nil
  | .cons i rest => forestInsert (sortItemChildren i) (sortTreeAlphabetically rest)
end

/-- `sortTreeAlphabetically` on a top-level list. -/
def sortTreeList (l : List SidebarItem) : List SidebarItem :=
  (sortTreeAlphabetically (SidebarForest.ofList l)).toList

/-- `findIndex` + `splice(found, 1)`: remove the first element satisfying the
predicate, returning it and the remainder. -/
def extractFirst (pred : α → Bool) : List α → Option (α × List α)
  | [] => none
  | x :: xs =>
    if pred x then some (x, xs)
    else (extractFirst pred xs).map fun r => (r.1, x :: r.2)

/-- The literal (no-`*`) match test of `applyOrdering`: the item's route is
`/<stem>` or `/<stem>/` where `stem` is the pattern with the markup extension
stripped. -/
def literalPatternHits (pattern : JStr) (item : SidebarItem) : Bool :=
  let stem := stripMarkupExt pattern
  item.route == '/' :: stem ∨ item.route == '/' :: stem ++ lit "/"

/-- One literal (no-`*`) pattern of the first `applyOrdering` pass: consume
(`findIndex` + `splice` + `push`) the first still-unplaced item it hits. -/
def literalStep (acc : List SidebarItem × List SidebarItem) (pattern : JStr) :
    List SidebarItem × List SidebarItem :=
  if pattern.contains '*' then acc
  else
    match extractFirst (literalPatternHits pattern) acc.2 with
    | some (item, rest) => (acc.1 ++ [item], rest)
    | none => acc

/-- First pass of `applyOrdering`: literal patterns in listed order. -/
def consumeLiterals (order : List JStr) (acc : List SidebarItem × List SidebarItem) :
    List SidebarItem × List SidebarItem :=
  order.foldl literalStep acc

/-- One glob pattern of the second `applyOrdering` pass: consume every
still-unplaced item whose route minus the leading slash matches the
substituted regex (unanchored). -/
def globStep (acc : List SidebarItem × List SidebarItem) (pattern : JStr) :
    List SidebarItem × List SidebarItem :=
  if pattern.contains '*' then
    let part := acc.2.partition fun item => regexTest (patternAtoms pattern) (item.route.drop 1)
    (acc.1 ++ part.1, part.2)
  else acc

/-- Second pass of `applyOrdering`: glob patterns in listed order. -/
def consumeGlobs (order : List JStr) (acc : List SidebarItem × List SidebarItem) :
    List SidebarItem × List SidebarItem :=
  order.foldl globStep acc

/-- `applyOrdering(tree, order)` from src/content/sidebar.ts: literal
patterns first, then glob patterns, then the alphabetically sorted rest. -/
def applyOrdering (tree : List SidebarItem) (order : List JStr) : List SidebarItem :=
  let pass1 := consumeLiterals order (([] : List SidebarItem), tree)
  let pass2 := consumeGlobs order pass1
  pass2.1 ++ sortTreeList pass2.2

/-! ## Configuration (src/config.ts) -/

/-- `SiteConfig.site`. -/
structure SiteSection where
  title : JStr
  baseUrl : JStr
deriving Repr, DecidableEq

/-- `SiteConfig.sidebar`. -/
structure SidebarSection where
  order : List JStr
deriving Repr, DecidableEq

/-- `SiteConfig.linkcheck`. -/
structure LinkcheckSection where
  enabled : Bool
  externalTimeoutMs : Nat
deriving Repr, DecidableEq

/-- `SiteConfig` from src/content/types.ts. -/
structure SiteConfig where
  site : SiteSection
  sidebar : SidebarSection
  linkcheck : LinkcheckSection
  ignore : List JStr
deriving Repr, DecidableEq

/-- `Partial<SiteConfig>` as a parse produces it: every section and field may
be absent. -/
structure PartialSite where
  title : Option JStr := none
  baseUrl : Option JStr := none
deriving Repr, DecidableEq

/-- Partial `sidebar` section. -/
structure PartialSidebar where
  order : Option (List JStr) := none
deriving Repr, DecidableEq

/-- Partial `linkcheck` section. -/
structure PartialLinkcheck where
  enabled : Option Bool := none
  externalTimeoutMs : Option Nat := none
deriving Repr, DecidableEq

/-- Partial `SiteConfig`. -/
structure PartialConfig where
  site : Option PartialSite := none
  sidebar : Option PartialSidebar := none
  linkcheck : Option PartialLinkcheck := none
  ignore : Option (List JStr) := none
deriving Repr, DecidableEq

/-- `DEFAULT_CONFIG` from src/config.ts. -/
def DEFAULT_CONFIG : SiteConfig :=
  { site := { title := lit "My Docs", baseUrl := lit "/" }
    sidebar := { order := [] }
    linkcheck := { enabled := true, externalTimeoutMs := 5000 }
    ignore := [] }

/-- `mergeConfig(defaultConfig, userConfig)` from src/config.ts: per-section
spread — a field present in the user section wins, absent fields keep the
default; `ignore` is `userConfig.ignore || defaultConfig.ignore` (an empty
user list is truthy and wins). -/
def mergeConfig (defaultConfig : SiteConfig) (userConfig : PartialConfig) : SiteConfig :=
  { site :=
      { title := ((userConfig.site.bind (·.title)).getD defaultConfig.site.title)
        baseUrl := ((userConfig.site.bind (·.baseUrl)).getD defaultConfig.site.baseUrl) }
    sidebar :=
      { order := ((userConfig.sidebar.bind (·.order)).getD defaultConfig.sidebar.order) }
    linkcheck :=
      { enabled := ((userConfig.linkcheck.bind (·.enabled)).getD defaultConfig.linkcheck.enabled)
        externalTimeoutMs :=
          ((userConfig.linkcheck.bind (·.externalTimeoutMs)).getD
            defaultConfig.linkcheck.externalTimeoutMs) }
    ignore := userConfig.ignore.getD defaultConfig.ignore }

/-- The candidate file names of `loadConfig`, in search order. -/
def configFiles : List JStr :=
  [lit "markrealm.config.yaml", lit "markrealm.config.yml", lit "markrealm.config.json"]

/-- The `for (const configFile of configFiles)` loop of `loadConfig`: the
first candidate that exists and parses wins; a candidate that exists but
fails to parse (the catch logs a warning) falls through to the next
candidate; when no candidate is left the defaults are returned. -/
def loadConfigSearch (fsExists : JStr → Bool) (parseFile : JStr → Option PartialConfig)
    (docsDir : JStr) : List JStr → SiteConfig
  | [] => DEFAULT_CONFIG
  | f :: rest =>
    let configPath := pathJoin docsDir f
    if fsExists configPath then
      match parseFile configPath with
      | some config => mergeConfig DEFAULT_CONFIG config
      | none => loadConfigSearch fsExists parseFile docsDir rest
    else loadConfigSearch fsExists parseFile docsDir rest

/-- `loadConfig(docsDir)` from src/config.ts, over an explicit file system
(`fsExists` = `fs.existsSync`, `parseFile` = read plus YAML/JSON parse,
`none` meaning the parse threw). -/
def loadConfig (fsExists : JStr → Bool) (parseFile : JStr → Option PartialConfig)
    (docsDir : JStr) : SiteConfig :=
  loadConfigSearch fsExists parseFile docsDir configFiles

/-! ## Claim-side definitions taken from the specification's words -/

/-- Character allowed inside a URI scheme name. -/
def isSchemeChar (c : Char) : Bool :=
  c.isAlpha ∨ c.isDigit ∨ c = '+' ∨ c = '-' ∨ c = '.'

/-- Modelled from the spec: "absolute URL with scheme" — the href begins
with a letter-led run of scheme characters followed by `:`.  This is the
specification's notion of carrying a scheme, used to compare against the
source's literal `"http"` prefix test. -/
def specHasUrlScheme (href : JStr) : Bool :=
  match href with
  | [] => false
  | c :: _ =>
    c.isAlpha && (href.drop (href.takeWhile isSchemeChar).length).take 1 == lit ":"



/-! ## Event model for index mutations (dev-server file watching) -/

/-- One file-watch event as the server dispatches it: `added`/`changed` call
`updateDocumentInIndex`, `removed` calls `removeDocumentFromIndex`. -/
inductive IndexEv where
  | update (filePath : JStr)
  | remove (filePath : JStr)
deriving Repr, DecidableEq

/-- Dispatch one event to the corresponding index operation. -/
def applyEv (env : RenderEnv) (cwd docsDir : JStr) (patterns : List JStr)
    (index : ContentIndex) : IndexEv → ContentIndex
  | .update fp => updateDocumentInIndex env index fp docsDir cwd patterns
  | .remove fp => removeDocumentFromIndex index fp

/-- Apply a sequence of file-watch events. -/
def applyEvs (env : RenderEnv) (cwd docsDir : JStr) (patterns : List JStr)
    (index : ContentIndex) (evs : List IndexEv) : ContentIndex :=
  evs.foldl (applyEv env cwd docsDir patterns) index

/-- No two loadable files map to the same route (absence of the
last-route-wins collision that the design notes flag as an open question). -/
def RouteInjective (env : RenderEnv) (docsDir : JStr) : Prop :=
  ∀ fp1 fp2, (env fp1).isSome → (env fp2).isSome →
    generateRoute fp1 docsDir = generateRoute fp2 docsDir → fp1 = fp2

/-- The dual-map consistency invariant together with the bookkeeping needed
to preserve it: both key lists are duplicate-free, every entry is keyed by
its own route resp. path, is reachable from the opposite map, and is the
loader's output for its file. -/
def IndexGood (env : RenderEnv) (docsDir : JStr) (index : ContentIndex) : Prop :=
  (index.byRoute.entries.map Prod.fst).Nodup ∧
  (index.byPath.entries.map Prod.fst).Nodup ∧
  (∀ e ∈ index.byRoute.entries,
    e.2.route = e.1 ∧ index.byPath.get e.2.path = some e.2 ∧
      loadDocument env e.2.path docsDir = some e.2) ∧
  (∀ e ∈ index.byPath.entries,
    e.2.path = e.1 ∧ index.byRoute.get e.2.route = some e.2 ∧
      loadDocument env e.2.path docsDir = some e.2)

/-- An empty render result, for concrete instances. -/
def emptyRender : MarkdocResult := ⟨[], [], [], []⟩

/-- Environment with two loadable files whose derived routes collide
(`/r/guide.md` and `/r/guide/index.md` both map to `/guide`). -/
def collidingEnv : RenderEnv := fun p =>
  if p == lit "/r/guide.md" ∨ p == lit "/r/guide/index.md" then some emptyRender
  else none

/-- Environment with a single loadable file. -/
def singleFileEnv : RenderEnv := fun p =>
  if p == lit "/r/a.md" then some emptyRender else none

/-- Environment in which exactly one file (`/r/bad.md`) fails to load. -/
def isolatedEnv : RenderEnv := fun p =>
  if p == lit "/r/bad.md" then none else some emptyRender

/-- Modelled from the spec: a fetch outcome "passes" when the request
resolved with an HTTP status in `[200, 400)`. -/
def specOutcomePasses : FetchOutcome → Bool
  | .ok s => decide (200 ≤ s ∧ s < 400)
  | .error _ => false

/-- Modelled from the spec: "on any error (network, timeout, non-2xx/3xx
from HEAD) retry once with GET under the same timeout and status rule; if
that also fails or errors, the URL is broken" — i.e. the URL is valid
exactly when the HEAD outcome passes or the GET outcome passes. -/
def specRetryVerdict (head get : FetchOutcome) : Bool :=
  specOutcomePasses head || specOutcomePasses get

/-- A concrete heading with id `install`. -/
def installHeading : Heading := ⟨2, lit "Install", lit "install"⟩

/-- A concrete document at route `/guide` with one heading. -/
def guideDoc : DocMeta :=
  { path := lit "/r/guide.md", route := lit "/guide", title := lit "Guide"
    headings := [installHeading], frontMatter := [], links := [], html := [] }

/-- A concrete index holding only `guideDoc`. -/
def anchorIndex : ContentIndex :=
  ⟨⟨[(lit "/guide", guideDoc)]⟩, ⟨[(lit "/r/guide.md", guideDoc)]⟩⟩

/-- A concrete internal link to `/guide#install`. -/
def anchorLink : Link :=
  { href := lit "/guide#install", text := lit "x", type := .internal
    target := some (lit "/guide"), hash := some (lit "install") }

/-- Declarative meaning of the substituted regex: `chr c` matches exactly
`c`, `any` (a literal `.` of the pattern) matches any one character, and
`anyRun` (a substituted `*`) matches any run of characters. -/
inductive GlobMatch : List GAtom → JStr → Prop where
  | nil : GlobMatch [] []
  | chr (c : Char) {as : List GAtom} {s : JStr} :
      GlobMatch as s → GlobMatch (.chr c :: as) (c :: s)
  | any (c : Char) {as : List GAtom} {s : JStr} :
      GlobMatch as s → GlobMatch (.any :: as) (c :: s)
  | anyRun (run : JStr) {as : List GAtom} {s : JStr} :
      GlobMatch as s → GlobMatch (.anyRun :: as) (run ++ s)

/-- A file system on which every config candidate exists. -/
def cexFsExists : JStr → Bool := fun _ => true

/-- A parse oracle: the `.yaml` candidate is unparsable (throws), the
`.yml` candidate parses to a config with site title `Other`. -/
def cexParseFile : JStr → Option PartialConfig := fun p =>
  if p == pathJoin (lit "/docs") (lit "markrealm.config.yml") then
    some { site := some { title := some (lit "Other") } }
  else none

/-- What `extractLinks` guarantees for every link it emits: non-empty href
and text; `internal` exactly when all four literal prefix tests fail;
internal links carry the pre-`#` part as target and a hash exactly when the
first fragment is non-empty; external links carry neither. -/
def ExtractedLinkSpec (l : Link) : Prop :=
  (l.href ≠ [] ∧ l.text ≠ []) ∧
  ((l.type = .internal ↔
      (jsStartsWith l.href (lit "http") = false ∧ jsStartsWith l.href (lit "//") = false ∧
        jsStartsWith l.href (lit "mailto:") = false ∧ jsStartsWith l.href (lit "#") = false)) ∧
    (l.type = .internal →
      l.target = some ((splitOnChar '#' l.href).headD []) ∧
        ∀ h, l.hash = some h ↔ ((splitOnChar '#' l.href).get? 1 = some h ∧ h ≠ [])) ∧
    (l.type = .external → l.target = none ∧ l.hash = none))

/-- All links collected by one `checkInternalLinks` result. -/
def resultLinks (r : LinkCheckResult) : List Link :=
  r.broken ++ r.valid ++ r.external

/-- A link node with a non-http scheme (`ftp:`). -/
def ftpLinkNode : MarkNode :=
  .node (lit "link") (some (lit "ftp://example.com")) (.cons (.str (lit "x")) .nil)

/-- A link node with a relative href carrying a fragment. -/
def sampleLinkNode : MarkNode :=
  .node (lit "link") (some (lit "guide/intro#setup")) (.cons (.str (lit "Intro")) .nil)

/-- The link record `sampleLinkNode` produces. -/
def sampleLink : Link := mkExtractedLink (lit "guide/intro#setup") (lit "Intro")

/-- A document carrying one extracted link. -/
def linkedDoc : DocMeta :=
  { path := lit "/r/l.md", route := lit "/l", title := lit "L"
    headings := [], frontMatter := [], links := [sampleLink], html := [] }

/-- An index holding only `linkedDoc`. -/
def linkedIndex : ContentIndex :=
  ⟨⟨[(lit "/l", linkedDoc)]⟩, ⟨[(lit "/r/l.md", linkedDoc)]⟩⟩

/-- Leaf item `a` under `/guide`. -/
def leafA : SidebarItem := .mk (lit "a") (lit "/guide/a") none

/-- Leaf item `b` under `/guide`. -/
def leafB : SidebarItem := .mk (lit "b") (lit "/guide/b") none

/-- Directory item `/guide` whose children arrive in tree-build order
`[b, a]`. -/
def guideDir : SidebarItem :=
  .mk (lit "Guide") (lit "/guide") (some (.cons leafB (.cons leafA .nil)))

/-! ## Lemmas about the JS map model -/

namespace JSMap

theorem find?_setEntries_self (k : JStr) (v : α) (l : List (JStr × α)) :
    (setEntries k v l).find? (fun e => e.1 == k) = some (k, v) := by
  induction l with
  | nil => simp [setEntries]
  | cons e t ih =>
    by_cases h : e.1 = k
    · simp [setEntries, h]
    · have hb : (e.1 == k) = false := by simpa using h
      simp [setEntries, hb, List.find?_cons, ih]

theorem find?_setEntries_ne {k' k : JStr} (h : k' ≠ k) (v : α) (l : List (JStr × α)) :
    (setEntries k v l).find? (fun e => e.1 == k') = l.find? (fun e => e.1 == k') := by
  have hkk : (k == k') = false := by simpa using Ne.symm h
  induction l with
  | nil => simp [setEntries, hkk]
  | cons e t ih =>
    by_cases he : e.1 = k
    · have hek : (e.1 == k') = false := by simpa [he] using Ne.symm h
      simp [setEntries, he, List.find?_cons, hkk, hek]
    · have hb : (e.1 == k) = false := by simpa using he
      by_cases he' : e.1 = k'
      · simp [setEntries, hb, List.find?_cons, he', h]
      · have hb' : (e.1 == k') = false := by simpa using he'
        simp [setEntries, hb, List.find?_cons, hb', ih]

theorem get_set_self (m : JSMap α) (k : JStr) (v : α) : (m.set k v).get k = some v := by
  simp [get, set, find?_setEntries_self]

theorem get_set_ne (m : JSMap α) {k' k : JStr} (h : k' ≠ k) (v : α) :
    (m.set k v).get k' = m.get k' := by
  simp [get, set, find?_setEntries_ne h]

theorem keys_setEntries (k : JStr) (v : α) (l : List (JStr × α)) :
    (setEntries k v l).map Prod.fst =
      if k ∈ l.map Prod.fst then l.map Prod.fst else l.map Prod.fst ++ [k] := by
  induction l with
  | nil => simp [setEntries]
  | cons e t ih =>
    by_cases h : e.1 = k
    · have hset : setEntries k v (e :: t) = (k, v) :: t := by simp [setEntries, h]
      have hmem : k ∈ (e :: t).map Prod.fst := by
        rw [List.map_cons]
        exact List.mem_cons.2 (Or.inl h.symm)
      rw [hset, if_pos hmem, List.map_cons, List.map_cons, h]
    · have hb : (e.1 == k) = false := by simpa using h
      have hke : ¬ k = e.1 := Ne.symm h
      have hset : setEntries k v (e :: t) = e :: setEntries k v t := by
        simp [setEntries, hb]
      rw [hset, List.map_cons, ih, List.map_cons]
      by_cases hm : k ∈ t.map Prod.fst
      · rw [if_pos hm, if_pos (List.mem_cons.2 (Or.inr hm))]
      · rw [if_neg hm, if_neg (by simp [hke, hm]), List.cons_append]

theorem nodup_keys_set (m : JSMap α) (k : JStr) (v : α)
    (h : (m.entries.map Prod.fst).Nodup) : ((m.set k v).entries.map Prod.fst).Nodup := by
  show ((setEntries k v m.entries).map Prod.fst).Nodup
  rw [keys_setEntries]
  by_cases hm : k ∈ m.entries.map Prod.fst
  · rw [if_pos hm]
    exact h
  · rw [if_neg hm]
    simp [List.nodup_append, h, hm]

theorem mem_setEntries {x : JStr × α} {k : JStr} {v : α} {l : List (JStr × α)}
    (h : x ∈ setEntries k v l) : x = (k, v) ∨ x ∈ l := by
  induction l with
  | nil => simpa [setEntries] using h
  | cons e t ih =>
    by_cases he : e.1 = k
    · simp only [setEntries, beq_iff_eq, if_pos he, List.mem_cons] at h
      rcases h with h | h
      · exact Or.inl h
      · exact Or.inr (List.mem_cons_of_mem _ h)
    · have hb : (e.1 == k) = false := by simpa using he
      simp only [setEntries, hb, Bool.false_eq_true, if_false, List.mem_cons] at h
      rcases h with h | h
      · exact Or.inr (by simp [h])
      · rcases ih h with h | h
        · exact Or.inl h
        · exact Or.inr (List.mem_cons_of_mem _ h)

theorem mem_set {x : JStr × α} {m : JSMap α} {k : JStr} {v : α}
    (h : x ∈ (m.set k v).entries) : x = (k, v) ∨ x ∈ m.entries :=
  mem_setEntries h

theorem get_del_self (m : JSMap α) (k : JStr) : (m.del k).get k = none := by
  have hf : (m.entries.filter fun e => !(e.1 == k)).find? (fun e => e.1 == k) = none := by
    rw [List.find?_eq_none]
    intro x hx
    rcases List.mem_filter.1 hx with ⟨_, hx2⟩
    simpa using hx2
  simp [get, del, hf]

theorem find?_filter_of_imp (p q : JStr × α → Bool) (h : ∀ x, p x = true → q x = true)
    (l : List (JStr × α)) : (l.filter q).find? p = l.find? p := by
  induction l with
  | nil => simp
  | cons x t ih =>
    by_cases hq : q x = true
    · rw [List.filter_cons_of_pos hq]
      by_cases hp : p x = true
      · simp [List.find?_cons, hp]
      · have hp' : p x = false := by simpa using hp
        simp [List.find?_cons, hp', ih]
    · have hp : p x = false := by
        rcases Bool.eq_false_or_eq_true (p x) with h' | h'
        · exact absurd (h x h') hq
        · exact h'
      rw [List.filter_cons_of_neg (by simpa using hq)]
      simp [List.find?_cons, hp, ih]

theorem get_del_ne (m : JSMap α) {k' k : JStr} (h : k' ≠ k) :
    (m.del k).get k' = m.get k' := by
  simp only [get, del]
  rw [find?_filter_of_imp]
  intro x hx
  simp only [beq_iff_eq] at hx
  have hb : (x.1 == k) = false := beq_eq_false_iff_ne.2 (by rw [hx]; exact h)
  simp [hb]

theorem mem_del {x : JStr × α} {m : JSMap α} {k : JStr} :
    x ∈ (m.del k).entries ↔ x ∈ m.entries ∧ x.1 ≠ k := by
  simp [del, List.mem_filter]

theorem nodup_keys_del (m : JSMap α) (k : JStr)
    (h : (m.entries.map Prod.fst).Nodup) : ((m.del k).entries.map Prod.fst).Nodup := by
  have hsub : (m.del k).entries.Sublist m.entries := List.filter_sublist m.entries
  exact (hsub.map Prod.fst).nodup h

theorem get_some_mem {m : JSMap α} {k : JStr} {v : α} (h : m.get k = some v) :
    (k, v) ∈ m.entries := by
  simp only [get] at h
  cases hf : m.entries.find? (fun e => e.1 == k) with
  | none => rw [hf] at h; cases h
  | some e =>
    rw [hf] at h
    simp at h
    have hmem := List.mem_of_find?_eq_some hf
    have hpred := List.find?_some hf
    simp only [beq_iff_eq] at hpred
    obtain ⟨e1, e2⟩ := e
    simp only at hpred h
    rw [hpred, h] at hmem
    exact hmem

theorem find?_key_of_nodup {l : List (JStr × α)} {k : JStr} {v : α}
    (hn : (l.map Prod.fst).Nodup) (h : (k, v) ∈ l) :
    l.find? (fun e => e.1 == k) = some (k, v) := by
  induction l with
  | nil => cases h
  | cons e t ih =>
    rcases List.mem_cons.1 h with h | h
    · simp [List.find?_cons, ← h]
    · have hk : e.1 ≠ k := by
        intro hk
        have hmem : k ∈ t.map Prod.fst := List.mem_map.2 ⟨(k, v), h, rfl⟩
        rw [List.map_cons, List.nodup_cons, hk] at hn
        exact hn.1 hmem
      have hb : (e.1 == k) = false := by simpa using hk
      have hn' : (t.map Prod.fst).Nodup := by
        rw [List.map_cons, List.nodup_cons] at hn
        exact hn.2
      simp [List.find?_cons, hb, ih hn' h]

theorem get_eq_of_mem {m : JSMap α} {k : JStr} {v : α}
    (hn : (m.entries.map Prod.fst).Nodup) (h : (k, v) ∈ m.entries) :
    m.get k = some v := by
  simp [get, find?_key_of_nodup hn h]

end JSMap

/-! ## Preservation of the dual-map invariant -/

theorem loadDocument_path {env : RenderEnv} {fp docsDir : JStr} {d : DocMeta}
    (h : loadDocument env fp docsDir = some d) : d.path = fp := by
  cases he : env fp with
  | none => rw [loadDocument, he] at h; cases h
  | some r =>
    rw [loadDocument, he] at h
    simp at h
    rw [← h]

theorem loadDocument_isSome {env : RenderEnv} {fp docsDir : JStr} {d : DocMeta}
    (h : loadDocument env fp docsDir = some d) : (env fp).isSome := by
  cases he : env fp with
  | none => rw [loadDocument, he] at h; cases h
  | some r => simp

theorem loadDocument_route {env : RenderEnv} {fp docsDir : JStr} {d : DocMeta}
    (h : loadDocument env fp docsDir = some d) : d.route = generateRoute fp docsDir := by
  cases he : env fp with
  | none => rw [loadDocument, he] at h; cases h
  | some r =>
    rw [loadDocument, he] at h
    simp at h
    rw [← h]

theorem loadDocument_inj {env : RenderEnv} {docsDir : JStr}
    (hinj : RouteInjective env docsDir) {fp1 fp2 : JStr} {d1 d2 : DocMeta}
    (h1 : loadDocument env fp1 docsDir = some d1) (h2 : loadDocument env fp2 docsDir = some d2)
    (hr : d1.route = d2.route) : d1 = d2 := by
  have hfp : fp1 = fp2 := by
    apply hinj fp1 fp2 (loadDocument_isSome h1) (loadDocument_isSome h2)
    rw [← loadDocument_route h1, ← loadDocument_route h2, hr]
  rw [hfp] at h1
  rw [h1] at h2
  exact Option.some.inj h2

theorem good_empty (env : RenderEnv) (docsDir : JStr) :
    IndexGood env docsDir ⟨JSMap.empty, JSMap.empty⟩ := by
  refine ⟨by simp [JSMap.empty], by simp [JSMap.empty], ?_, ?_⟩ <;>
    · intro e he
      simp [JSMap.empty] at he

theorem good_insert {env : RenderEnv} {docsDir : JStr} {index : ContentIndex}
    (hinj : RouteInjective env docsDir) (hg : IndexGood env docsDir index)
    {fp : JStr} {d : DocMeta} (hd : loadDocument env fp docsDir = some d) :
    IndexGood env docsDir (indexInsert index d) := by
  obtain ⟨hnr, hnp, hR, hP⟩ := hg
  have hpath : d.path = fp := loadDocument_path hd
  have hd' : loadDocument env d.path docsDir = some d := by rw [hpath]; exact hd
  refine ⟨JSMap.nodup_keys_set _ _ _ hnr, JSMap.nodup_keys_set _ _ _ hnp, ?_, ?_⟩
  · intro e he
    rcases JSMap.mem_set he with he | he
    · rw [he]
      exact ⟨rfl, JSMap.get_set_self _ _ _, hd'⟩
    · obtain ⟨her, hep, hel⟩ := hR e he
      refine ⟨her, ?_, hel⟩
      by_cases hpp : e.2.path = d.path
      · have he2 : e.2 = d := by
          rw [hpp] at hel
          rw [hd'] at hel
          exact (Option.some.inj hel).symm
        rw [hpp, he2]
        exact JSMap.get_set_self _ _ _
      · exact (JSMap.get_set_ne index.byPath hpp d).trans hep
  · intro e he
    rcases JSMap.mem_set he with he | he
    · rw [he]
      exact ⟨rfl, JSMap.get_set_self _ _ _, hd'⟩
    · obtain ⟨hep, her, hel⟩ := hP e he
      refine ⟨hep, ?_, hel⟩
      by_cases hrr : e.2.route = d.route
      · have he2 : e.2 = d := loadDocument_inj hinj hel hd' hrr
        rw [hrr, he2]
        exact JSMap.get_set_self _ _ _
      · exact (JSMap.get_set_ne index.byRoute hrr d).trans her

theorem good_removePair {env : RenderEnv} {docsDir : JStr} {index : ContentIndex}
    (hg : IndexGood env docsDir index) {fp : JStr} {oldDoc : DocMeta}
    (hget : index.byPath.get fp = some oldDoc) :
    IndexGood env docsDir
      ⟨index.byRoute.del oldDoc.route, index.byPath.del fp⟩ := by
  obtain ⟨hnr, hnp, hR, hP⟩ := hg
  have hmem : (fp, oldDoc) ∈ index.byPath.entries := JSMap.get_some_mem hget
  obtain ⟨hop, hor, _⟩ := hP _ hmem
  simp only at hop hor
  refine ⟨JSMap.nodup_keys_del _ _ hnr, JSMap.nodup_keys_del _ _ hnp, ?_, ?_⟩
  · intro e he
    rw [JSMap.mem_del] at he
    obtain ⟨he, hne⟩ := he
    obtain ⟨her, hep, hel⟩ := hR e he
    refine ⟨her, ?_, hel⟩
    have hpp : e.2.path ≠ fp := by
      intro hpp
      rw [hpp, hget] at hep
      have : e.2 = oldDoc := (Option.some.inj hep).symm
      apply hne
      rw [← her, this]
    rw [JSMap.get_del_ne _ hpp]
    exact hep
  · intro e he
    rw [JSMap.mem_del] at he
    obtain ⟨he, hne⟩ := he
    obtain ⟨hep, her, hel⟩ := hP e he
    refine ⟨hep, ?_, hel⟩
    have hrr : e.2.route ≠ oldDoc.route := by
      intro hrr
      rw [hrr, hor] at her
      have : e.2 = oldDoc := (Option.some.inj her).symm
      apply hne
      rw [← hep, this]
      exact hop
    rw [JSMap.get_del_ne _ hrr]
    exact her

theorem good_remove {env : RenderEnv} {docsDir : JStr} {index : ContentIndex}
    (hg : IndexGood env docsDir index) (fp : JStr) :
    IndexGood env docsDir (removeDocumentFromIndex index fp) := by
  rw [removeDocumentFromIndex]
  cases hget : index.byPath.get fp with
  | none => exact hg
  | some oldDoc => exact good_removePair hg hget

theorem good_update {env : RenderEnv} {cwd docsDir : JStr} {index : ContentIndex}
    (hinj : RouteInjective env docsDir) (hg : IndexGood env docsDir index)
    (fp : JStr) (patterns : List JStr) :
    IndexGood env docsDir (updateDocumentInIndex env index fp docsDir cwd patterns) := by
  rw [updateDocumentInIndex]
  have hg1 : IndexGood env docsDir
      (match index.byPath.get fp with
        | some oldDoc =>
          { byRoute := index.byRoute.del oldDoc.route, byPath := index.byPath.del fp }
        | none => index) := by
    cases hget : index.byPath.get fp with
    | none => exact hg
    | some oldDoc => exact good_removePair hg hget
  by_cases hig : isIgnoredPath cwd fp patterns
  · simp only [hig, if_true]
    exact hg1
  · simp only [hig, if_false]
    cases hload : loadDocument env fp docsDir with
    | none => exact hg1
    | some d => exact good_insert hinj hg1 hload

theorem good_buildStep {env : RenderEnv} {cwd docsDir : JStr} {index : ContentIndex}
    (hinj : RouteInjective env docsDir) (hg : IndexGood env docsDir index)
    (patterns : List JStr) (fp : JStr) :
    IndexGood env docsDir (buildStep env cwd docsDir patterns index fp) := by
  rw [buildStep]
  by_cases hig : isIgnoredPath cwd fp patterns
  · simp only [hig, if_true]
    exact hg
  · simp only [hig, if_false]
    cases hload : loadDocument env fp docsDir with
    | none => exact hg
    | some d => exact good_insert hinj hg hload

theorem good_build (env : RenderEnv) (cwd docsDir : JStr) (patterns : List JStr)
    (hinj : RouteInjective env docsDir) (files : List JStr) :
    IndexGood env docsDir (buildContentIndex env cwd docsDir patterns files) := by
  rw [buildContentIndex]
  have h : ∀ (fs : List JStr) (index : ContentIndex), IndexGood env docsDir index →
      IndexGood env docsDir (fs.foldl (buildStep env cwd docsDir patterns) index) := by
    intro fs
    induction fs with
    | nil => intro index hg; exact hg
    | cons f t ih =>
      intro index hg
      exact ih _ (good_buildStep hinj hg patterns f)
  exact h files _ (good_empty env docsDir)

theorem good_applyEvs {env : RenderEnv} {cwd docsDir : JStr} {patterns : List JStr}
    (hinj : RouteInjective env docsDir) (evs : List IndexEv) (index : ContentIndex)
    (hg : IndexGood env docsDir index) :
    IndexGood env docsDir (applyEvs env cwd docsDir patterns index evs) := by
  rw [applyEvs]
  induction evs generalizing index with
  | nil => exact hg
  | cons ev t ih =>
    apply ih
    cases ev with
    | update fp => exact good_update hinj hg fp patterns
    | remove fp => exact good_remove hg fp

theorem good_size_eq {env : RenderEnv} {docsDir : JStr} {index : ContentIndex}
    (hg : IndexGood env docsDir index) : index.byRoute.size = index.byPath.size := by
  obtain ⟨hnr, hnp, hR, hP⟩ := hg
  have hkeysR : index.byRoute.entries.map Prod.fst = index.byRoute.values.map DocMeta.route := by
    rw [JSMap.values, List.map_map]
    exact List.map_congr_left fun e he => ((hR e he).1).symm
  have hkeysP : index.byPath.entries.map Prod.fst = index.byPath.values.map DocMeta.path := by
    rw [JSMap.values, List.map_map]
    exact List.map_congr_left fun e he => ((hP e he).1).symm
  have hvR : index.byRoute.values.Nodup := by
    rw [hkeysR] at hnr
    exact hnr.of_map
  have hvP : index.byPath.values.Nodup := by
    rw [hkeysP] at hnp
    exact hnp.of_map
  have hsub1 : index.byRoute.values ⊆ index.byPath.values := by
    intro d hd
    obtain ⟨e, he, rfl⟩ := List.mem_map.1 hd
    have hm := JSMap.get_some_mem (hR e he).2.1
    exact List.mem_map.2 ⟨_, hm, rfl⟩
  have hsub2 : index.byPath.values ⊆ index.byRoute.values := by
    intro d hd
    obtain ⟨e, he, rfl⟩ := List.mem_map.1 hd
    have hm := JSMap.get_some_mem (hP e he).2.1
    exact List.mem_map.2 ⟨_, hm, rfl⟩
  have h1 := (List.subperm_of_subset hvR hsub1).length_le
  have h2 := (List.subperm_of_subset hvP hsub2).length_le
  have lvR : index.byRoute.values.length = index.byRoute.entries.length := by
    rw [JSMap.values, List.length_map]
  have lvP : index.byPath.values.length = index.byPath.entries.length := by
    rw [JSMap.values, List.length_map]
  rw [JSMap.size, JSMap.size]
  omega

theorem good_get_values {env : RenderEnv} {docsDir : JStr} {index : ContentIndex}
    (hg : IndexGood env docsDir index) {d : DocMeta}
    (hd : d ∈ index.byRoute.values ∨ d ∈ index.byPath.values) :
    index.byRoute.get d.route = some d ∧ index.byPath.get d.path = some d := by
  obtain ⟨hnr, hnp, hR, hP⟩ := hg
  rcases hd with hd | hd
  · obtain ⟨e, he, rfl⟩ := List.mem_map.1 hd
    obtain ⟨her, hep, _⟩ := hR e he
    refine ⟨?_, hep⟩
    apply JSMap.get_eq_of_mem hnr
    have : e = (e.2.route, e.2) := by
      cases e
      simp only at her ⊢
      rw [her]
    rwa [← this]
  · obtain ⟨e, he, rfl⟩ := List.mem_map.1 hd
    obtain ⟨hep, her, _⟩ := hP e he
    refine ⟨her, ?_⟩
    apply JSMap.get_eq_of_mem hnp
    have : e = (e.2.path, e.2) := by
      cases e
      simp only at hep ⊢
      rw [hep]
    rwa [← this]

/-! ## Claim C1 -/

/-- C1 (amended): for every index reachable by `buildContentIndex` followed
by any sequence of `updateDocumentInIndex` / `removeDocumentFromIndex`
events, provided no two loadable files derive the same route,
`byRoute.size = byPath.size` and every document of either map is reachable
identically from both maps (`byRoute.get(doc.route)` and
`byPath.get(doc.path)` both return exactly that document). -/
theorem contentIndex_dual_map_invariant
    (env : RenderEnv) (cwd docsDir : JStr) (patterns : List JStr)
    (files : List JStr) (evs : List IndexEv)
    (hinj : RouteInjective env docsDir) :
    (applyEvs env cwd docsDir patterns
        (buildContentIndex env cwd docsDir patterns files) evs).byRoute.size =
      (applyEvs env cwd docsDir patterns
        (buildContentIndex env cwd docsDir patterns files) evs).byPath.size ∧
    (∀ d, d ∈ (applyEvs env cwd docsDir patterns
          (buildContentIndex env cwd docsDir patterns files) evs).byRoute.values ∨
        d ∈ (applyEvs env cwd docsDir patterns
          (buildContentIndex env cwd docsDir patterns files) evs).byPath.values →
      (applyEvs env cwd docsDir patterns
          (buildContentIndex env cwd docsDir patterns files) evs).byRoute.get d.route =
        some d ∧
      (applyEvs env cwd docsDir patterns
          (buildContentIndex env cwd docsDir patterns files) evs).byPath.get d.path =
        some d) := by
  have hg : IndexGood env docsDir
      (applyEvs env cwd docsDir patterns
        (buildContentIndex env cwd docsDir patterns files) evs) :=
    good_applyEvs hinj evs _ (good_build env cwd docsDir patterns hinj files)
  exact ⟨good_size_eq hg, fun d hd => good_get_values hg hd⟩

/-- C1 witness: the invariant instantiated on a concrete one-file build
followed by an update and a remove. -/
theorem contentIndex_dual_map_invariant_witness :
    (applyEvs singleFileEnv (lit "/cwd") (lit "/r") []
        (buildContentIndex singleFileEnv (lit "/cwd") (lit "/r") [] [lit "/r/a.md"])
        [IndexEv.update (lit "/r/a.md")]).byRoute.size =
      (applyEvs singleFileEnv (lit "/cwd") (lit "/r") []
        (buildContentIndex singleFileEnv (lit "/cwd") (lit "/r") [] [lit "/r/a.md"])
        [IndexEv.update (lit "/r/a.md")]).byPath.size := by
  have hinj : RouteInjective singleFileEnv (lit "/r") := by
    intro fp1 fp2 h1 h2 _
    have e1 : fp1 = lit "/r/a.md" := by
      by_contra hne
      have hb : (fp1 == lit "/r/a.md") = false := beq_eq_false_iff_ne.2 hne
      simp [singleFileEnv, hb] at h1
    have e2 : fp2 = lit "/r/a.md" := by
      by_contra hne
      have hb : (fp2 == lit "/r/a.md") = false := beq_eq_false_iff_ne.2 hne
      simp [singleFileEnv, hb] at h2
    rw [e1, e2]
  exact (contentIndex_dual_map_invariant singleFileEnv (lit "/cwd") (lit "/r") []
    [lit "/r/a.md"] [IndexEv.update (lit "/r/a.md")] hinj).1

/-- C1 counterexample: two loadable files whose routes collide
(`/r/guide.md` and `/r/guide/index.md` both derive route `/guide`) leave
`byRoute` with one entry and `byPath` with two after `buildContentIndex`,
so the two sizes differ and the claimed invariant fails as stated. -/
theorem contentIndex_dual_map_counterexample :
    (buildContentIndex collidingEnv (lit "/cwd") (lit "/r") []
        [lit "/r/guide.md", lit "/r/guide/index.md"]).byRoute.size = 1 ∧
    (buildContentIndex collidingEnv (lit "/cwd") (lit "/r") []
        [lit "/r/guide.md", lit "/r/guide/index.md"]).byPath.size = 2 ∧
    generateRoute (lit "/r/guide.md") (lit "/r") =
      generateRoute (lit "/r/guide/index.md") (lit "/r") := by decide

/-! ## Claim C2 -/

theorem buildStep_of_load_none {env : RenderEnv} {cwd docsDir f : JStr}
    {patterns : List JStr} (hf : env f = none) (index : ContentIndex) :
    buildStep env cwd docsDir patterns index f = index := by
  rw [buildStep]
  have hl : loadDocument env f docsDir = none := by
    rw [loadDocument, hf]
    rfl
  by_cases hig : isIgnoredPath cwd f patterns
  · simp [hig]
  · simp [hig, hl]

theorem foldl_buildStep_get_path_of_not_mem {env : RenderEnv} {cwd docsDir fp : JStr}
    {patterns : List JStr} {fs : List JStr} (hfp : fp ∉ fs) (index : ContentIndex) :
    ((fs.foldl (buildStep env cwd docsDir patterns) index).byPath.get fp) =
      index.byPath.get fp := by
  induction fs generalizing index with
  | nil => rfl
  | cons g t ih =>
    have hne : fp ≠ g := fun h => hfp (h ▸ List.mem_cons_self g t)
    have hnt : fp ∉ t := fun h => hfp (List.mem_cons_of_mem g h)
    rw [List.foldl_cons, ih hnt]
    rw [buildStep]
    by_cases hig : isIgnoredPath cwd g patterns
    · simp [hig]
    · simp only [hig, Bool.false_eq_true, if_false]
      cases hload : loadDocument env g docsDir with
      | none => rfl
      | some d =>
        have hdp : d.path = g := loadDocument_path hload
        show (index.byPath.set d.path d).get fp = index.byPath.get fp
        rw [hdp]
        exact JSMap.get_set_ne index.byPath hne d

theorem foldl_buildStep_get_path_of_mem {env : RenderEnv} {cwd docsDir fp : JStr}
    {patterns : List JStr} {fs : List JStr} (hfp : fp ∈ fs) (hsome : (env fp).isSome)
    (hig : isIgnoredPath cwd fp patterns = false) (index : ContentIndex) :
    ((fs.foldl (buildStep env cwd docsDir patterns) index).byPath.get fp) =
      loadDocument env fp docsDir := by
  induction fs generalizing index with
  | nil => cases hfp
  | cons g t ih =>
    rw [List.foldl_cons]
    by_cases hmt : fp ∈ t
    · exact ih hmt _
    · have hg : fp = g := by
        rcases List.mem_cons.1 hfp with h | h
        · exact h
        · exact absurd h hmt
      rw [foldl_buildStep_get_path_of_not_mem hmt]
      subst hg
      rw [buildStep, hig]
      simp only [Bool.false_eq_true, if_false]
      obtain ⟨r, hr⟩ := Option.isSome_iff_exists.1 hsome
      have hload : loadDocument env fp docsDir =
          some { path := fp, route := generateRoute fp docsDir,
                 title := extractTitle r.frontMatter r.headings,
                 headings := r.headings, frontMatter := r.frontMatter,
                 links := r.links, html := r.html } := by
        rw [loadDocument, hr]
        rfl
      rw [hload]
      exact JSMap.get_set_self _ _ _

/-- C2: per-file failure isolation in the full build.  A file whose load
fails (read error or render throw, both caught per file) contributes
nothing and changes nothing: the build of `files1 ++ f :: files2` equals
the build of `files1 ++ files2`, and every non-ignored loadable file of the
batch is still indexed under its path with its loaded document. -/
theorem buildContentIndex_isolation
    (env : RenderEnv) (cwd docsDir : JStr) (patterns : List JStr)
    (files1 files2 : List JStr) (f : JStr) (hf : env f = none) :
    buildContentIndex env cwd docsDir patterns (files1 ++ f :: files2) =
      buildContentIndex env cwd docsDir patterns (files1 ++ files2) ∧
    (∀ fp, fp ∈ files1 ++ files2 → (env fp).isSome →
      isIgnoredPath cwd fp patterns = false →
      (buildContentIndex env cwd docsDir patterns (files1 ++ f :: files2)).byPath.get fp =
        loadDocument env fp docsDir) := by
  have heq : buildContentIndex env cwd docsDir patterns (files1 ++ f :: files2) =
      buildContentIndex env cwd docsDir patterns (files1 ++ files2) := by
    rw [buildContentIndex, buildContentIndex, List.foldl_append, List.foldl_append,
      List.foldl_cons, buildStep_of_load_none hf]
  refine ⟨heq, ?_⟩
  intro fp hfp hsome hig
  rw [heq, buildContentIndex]
  exact foldl_buildStep_get_path_of_mem hfp hsome hig _

/-- C2 witness: with `/r/bad.md` failing, building `[/r/a.md, /r/bad.md]`
equals building `[/r/a.md]`, and `/r/a.md` is still indexed. -/
theorem buildContentIndex_isolation_witness :
    buildContentIndex isolatedEnv (lit "/cwd") (lit "/r") []
        [lit "/r/a.md", lit "/r/bad.md"] =
      buildContentIndex isolatedEnv (lit "/cwd") (lit "/r") [] [lit "/r/a.md"] ∧
    (buildContentIndex isolatedEnv (lit "/cwd") (lit "/r") []
        [lit "/r/a.md", lit "/r/bad.md"]).byPath.get (lit "/r/a.md") =
      loadDocument isolatedEnv (lit "/r/a.md") (lit "/r") := by
  have h := buildContentIndex_isolation isolatedEnv (lit "/cwd") (lit "/r") []
    [lit "/r/a.md"] [] (lit "/r/bad.md") (by decide)
  exact ⟨h.1, h.2 (lit "/r/a.md") (by decide) (by decide) (by decide)⟩

/-! ## Claim C3 -/

/-- C3 (amended): `checkSingleExternalLink` classifies a URL valid exactly
when the HEAD request resolved with a status in `[200, 400)`, or the HEAD
request threw (network failure or timeout abort) and the GET retry resolved
with a status in `[200, 400)`.  A HEAD response with a bad status decides
by itself — only a thrown HEAD reaches the GET retry.  In particular a URL
whose HEAD times out but whose GET returns 200 is valid. -/
theorem checkSingleExternalLink_spec :
    (∀ head get : FetchOutcome,
      (checkSingleExternalLink head get = true ↔
        (∃ s, head = Except.ok s ∧ 200 ≤ s ∧ s < 400) ∨
          (head = Except.error () ∧ ∃ s, get = Except.ok s ∧ 200 ≤ s ∧ s < 400))) ∧
    checkSingleExternalLink (Except.error ()) (Except.ok 200) = true := by
  constructor
  · intro head get
    cases head with
    | ok s => simp [checkSingleExternalLink]
    | error e =>
      cases get with
      | ok s => simp [checkSingleExternalLink]
      | error e' => simp [checkSingleExternalLink]
  · decide

/-- C3 counterexample: a HEAD that resolves with status 500 and a GET that
would return 200.  The claim's rule (retry on any error, including a
non-2xx/3xx HEAD status) classifies the URL valid, but the code returns
`false` without ever issuing the GET — the catch block only runs when the
HEAD request throws. -/
theorem checkSingleExternalLink_counterexample :
    checkSingleExternalLink (Except.ok 500) (Except.ok 200) = false ∧
    specRetryVerdict (Except.ok 500) (Except.ok 200) = true := by decide

/-! ## Claim C4 -/

/-- C4: `checkInternalLink` counts a link valid exactly when it carries a
non-empty target whose normalized route (leading `/` ensured, one trailing
`/` stripped unless the target is exactly `/`) resolves to a document, and
any non-empty hash names a heading id of that document.  In particular a
missing (absent or empty) target is always broken. -/
theorem checkInternalLink_spec (link : Link) (index : ContentIndex) :
    checkInternalLink link index = true ↔
      ∃ t, link.target = some t ∧ t ≠ [] ∧
        ∃ doc, index.byRoute.get (normalizeTarget t) = some doc ∧
          ∀ h, link.hash = some h → h ≠ [] → ∃ hd ∈ doc.headings, hd.id = h := by
  cases ht : link.target with
  | none => simp [checkInternalLink, ht]
  | some t =>
    by_cases hte : t = []
    · simp [checkInternalLink, ht, hte]
    · cases hget : index.byRoute.get (normalizeTarget t) with
      | none => simp [checkInternalLink, ht, hte, hget]
      | some doc =>
        cases hh : link.hash with
        | none => simp [checkInternalLink, ht, hte, hget, hh]
        | some h =>
          by_cases hhe : h = []
          · simp [checkInternalLink, ht, hte, hget, hh, hhe]
          · simp [checkInternalLink, ht, hte, hget, hh, hhe, List.any_eq_true]

/-- C4 witness: the characterization applied to the concrete link
`/guide#install` against the concrete one-document index. -/
theorem checkInternalLink_spec_witness :
    ∃ t, anchorLink.target = some t ∧ t ≠ [] ∧
      ∃ doc, anchorIndex.byRoute.get (normalizeTarget t) = some doc ∧
        ∀ h, anchorLink.hash = some h → h ≠ [] → ∃ hd ∈ doc.headings, hd.id = h :=
  (checkInternalLink_spec anchorLink anchorIndex).mp (by decide)

/-! ## Claim C8 -/

theorem jsStartsWith_iff {s pre : JStr} : jsStartsWith s pre = true ↔ ∃ rest, s = pre ++ rest := by
  rw [jsStartsWith, beq_iff_eq]
  constructor
  · intro h
    refine ⟨s.drop pre.length, ?_⟩
    conv_lhs => rw [← List.take_append_drop pre.length s]
    rw [h]
  · rintro ⟨rest, rfl⟩
    simp

theorem jsIncludes_iff {s sub : JStr} : jsIncludes s sub = true ↔ ∃ pre post, s = pre ++ sub ++ post := by
  rw [jsIncludes, List.any_eq_true]
  constructor
  · rintro ⟨k, _, h⟩
    obtain ⟨rest, hrest⟩ := jsStartsWith_iff.1 h
    refine ⟨s.take k, rest, ?_⟩
    conv_lhs => rw [← List.take_append_drop k s]
    rw [hrest, List.append_assoc]
  · rintro ⟨pre, post, rfl⟩
    refine ⟨pre.length, ?_, ?_⟩
    · rw [List.mem_range]
      have h1 : pre.length ≤ (pre ++ sub ++ post).length := by simp
      omega
    · refine jsStartsWith_iff.2 ⟨post, ?_⟩
      rw [List.append_assoc, List.drop_left]

theorem matchCore_iff (as : List GAtom) :
    ∀ s, matchCore as s = true ↔ ∃ s1 s2, s = s1 ++ s2 ∧ GlobMatch as s1 := by
  induction as with
  | nil =>
    intro s
    simp only [matchCore, true_iff]
    exact ⟨[], s, rfl, GlobMatch.nil⟩
  | cons a as ih =>
    intro s
    cases a with
    | chr c =>
      cases s with
      | nil =>
        simp only [matchCore, Bool.false_eq_true, false_iff]
        rintro ⟨s1, s2, h, hg⟩
        cases hg with
        | chr _ _ => simp at h
      | cons x xs =>
        simp only [matchCore, Bool.and_eq_true, beq_iff_eq]
        constructor
        · rintro ⟨rfl, h⟩
          obtain ⟨s1, s2, rfl, hg⟩ := (ih xs).1 h
          exact ⟨c :: s1, s2, rfl, GlobMatch.chr c hg⟩
        · rintro ⟨s1, s2, h, hg⟩
          cases hg with
          | chr _ hgs =>
            rw [List.cons_append] at h
            injection h with h1 h2
            exact ⟨h1.symm, (ih xs).2 ⟨_, s2, h2, hgs⟩⟩
    | any =>
      cases s with
      | nil =>
        simp only [matchCore, Bool.false_eq_true, false_iff]
        rintro ⟨s1, s2, h, hg⟩
        cases hg with
        | any _ _ => simp at h
      | cons x xs =>
        simp only [matchCore]
        constructor
        · intro h
          obtain ⟨s1, s2, rfl, hg⟩ := (ih xs).1 h
          exact ⟨x :: s1, s2, rfl, GlobMatch.any x hg⟩
        · rintro ⟨s1, s2, h, hg⟩
          cases hg with
          | any _ hgs =>
            rw [List.cons_append] at h
            injection h with h1 h2
            exact (ih xs).2 ⟨_, s2, h2, hgs⟩
    | anyRun =>
      rw [matchCore, List.any_eq_true]
      constructor
      · rintro ⟨k, _, h⟩
        obtain ⟨s1, s2, hsplit, hg⟩ := (ih (s.drop k)).1 h
        refine ⟨s.take k ++ s1, s2, ?_, GlobMatch.anyRun (s.take k) hg⟩
        rw [List.append_assoc, ← hsplit, List.take_append_drop]
      · rintro ⟨s1, s2, hs, hg⟩
        cases hg with
        | anyRun run hg2 =>
          refine ⟨run.length, ?_, ?_⟩
          · rw [List.mem_range]
            have h1 : run.length ≤ s.length := by
              rw [hs]
              simp
            omega
          · refine (ih _).2 ⟨_, s2, ?_, hg2⟩
            rw [hs, List.append_assoc, List.drop_left]

theorem regexTest_iff (atoms : List GAtom) (s : JStr) :
    regexTest atoms s = true ↔
      ∃ pre mid post, s = pre ++ mid ++ post ∧ GlobMatch atoms mid := by
  rw [regexTest, List.any_eq_true]
  constructor
  · rintro ⟨k, _, h⟩
    obtain ⟨mid, post, hsplit, hg⟩ := (matchCore_iff atoms (s.drop k)).1 h
    refine ⟨s.take k, mid, post, ?_, hg⟩
    rw [List.append_assoc, ← hsplit, List.take_append_drop]
  · rintro ⟨pre, mid, post, rfl, hg⟩
    refine ⟨pre.length, ?_, ?_⟩
    · rw [List.mem_range]
      have h1 : pre.length ≤ (pre ++ mid ++ post).length := by simp
      omega
    · refine (matchCore_iff atoms _).2 ⟨mid, post, ?_, hg⟩
      rw [List.append_assoc, List.drop_left]

/-- C8: `isIgnoredPath` returns true exactly when some pattern matches the
path taken relative to the working directory: a pattern containing `*`
matches by the `*` → any-run regex substitution tested anywhere in the
relative path (with a pattern `.` matching any character and no other glob
syntax handled), and a pattern without `*` matches as a literal substring;
the empty pattern list ignores nothing. -/
theorem isIgnoredPath_spec (cwd filePath : JStr) (patterns : List JStr) :
    (isIgnoredPath cwd filePath patterns = true ↔
      ∃ p ∈ patterns,
        (p.contains '*' = true ∧
          ∃ pre mid post, pathRelative cwd filePath = pre ++ mid ++ post ∧
            GlobMatch (patternAtoms p) mid) ∨
        (p.contains '*' = false ∧
          ∃ pre post, pathRelative cwd filePath = pre ++ p ++ post)) ∧
    isIgnoredPath cwd filePath [] = false := by
  refine ⟨?_, rfl⟩
  rw [isIgnoredPath, List.any_eq_true]
  constructor
  · rintro ⟨p, hp, hcond⟩
    refine ⟨p, hp, ?_⟩
    by_cases hstar : p.contains '*'
    · rw [if_pos hstar] at hcond
      exact Or.inl ⟨hstar, (regexTest_iff _ _).1 hcond⟩
    · rw [if_neg hstar] at hcond
      exact Or.inr ⟨by simpa using hstar, jsIncludes_iff.1 hcond⟩
  · rintro ⟨p, hp, hcond⟩
    refine ⟨p, hp, ?_⟩
    rcases hcond with ⟨hstar, hdec⟩ | ⟨hstar, hdec⟩
    · rw [if_pos hstar]
      exact (regexTest_iff _ _).2 hdec
    · rw [if_neg (by simpa using hstar)]
      exact jsIncludes_iff.2 hdec

/-- C8 witness: the characterization applied to `drafts/**` against
`drafts/x.md`. -/
theorem isIgnoredPath_spec_witness :
    ∃ p ∈ [lit "drafts/**"],
      (p.contains '*' = true ∧
        ∃ pre mid post,
          pathRelative (lit "/cwd") (lit "/cwd/drafts/x.md") = pre ++ mid ++ post ∧
          GlobMatch (patternAtoms p) mid) ∨
      (p.contains '*' = false ∧
        ∃ pre post, pathRelative (lit "/cwd") (lit "/cwd/drafts/x.md") = pre ++ p ++ post) :=
  ((isIgnoredPath_spec (lit "/cwd") (lit "/cwd/drafts/x.md") [lit "drafts/**"]).1).mp
    (by decide)

example : isIgnoredPath (lit "/cwd") (lit "/cwd/drafts/x.md") [lit "drafts/**"] = true := by
  decide
example : isIgnoredPath (lit "/cwd") (lit "/cwd/drafts/sub/y.md") [lit "drafts/**"] = true := by
  decide
example : isIgnoredPath (lit "/cwd") (lit "/cwd/notes.draft.md") [lit "*.draft.md"] = true := by
  decide
example : isIgnoredPath (lit "/cwd") (lit "/cwd/notes.md") [lit "drafts/**"] = false := by
  decide

/-! ## Claim C9 -/

/-- C9 (amended): `loadConfig` tries the candidates `<name>.yaml`,
`<name>.yml`, `<name>.json` in that fixed order and returns the defaults
merged with the first candidate that both exists and parses; a candidate
that exists but is unparsable is skipped with a warning and the search
falls through to the next candidate; the defaults alone are returned when
no candidate exists or parses. -/
theorem loadConfig_spec (fsExists : JStr → Bool) (parseFile : JStr → Option PartialConfig)
    (docsDir : JStr) :
    loadConfig fsExists parseFile docsDir =
      (((configFiles.filterMap fun f =>
          if fsExists (pathJoin docsDir f) = true then parseFile (pathJoin docsDir f)
          else none).head?.map (mergeConfig DEFAULT_CONFIG)).getD DEFAULT_CONFIG) := by
  rw [loadConfig]
  have h : ∀ fs : List JStr, loadConfigSearch fsExists parseFile docsDir fs =
      (((fs.filterMap fun f =>
          if fsExists (pathJoin docsDir f) = true then parseFile (pathJoin docsDir f)
          else none).head?.map (mergeConfig DEFAULT_CONFIG)).getD DEFAULT_CONFIG) := by
    intro fs
    induction fs with
    | nil => rfl
    | cons f rest ih =>
      by_cases he : fsExists (pathJoin docsDir f) = true
      · cases hp : parseFile (pathJoin docsDir f) with
        | some c => simp [loadConfigSearch, he, hp, List.filterMap_cons]
        | none => simp [loadConfigSearch, he, hp, List.filterMap_cons, ih]
      · simp [loadConfigSearch, he, List.filterMap_cons, ih]
  exact h configFiles

/-- C9 counterexample: every candidate exists; the first (`.yaml`) is
unparsable, the second (`.yml`) parses to a config with site title
`Other`.  The claim says the defaults are used once the found file fails
to parse, but `loadConfig` falls through and returns the `.yml` config. -/
theorem loadConfig_counterexample :
    (loadConfig cexFsExists cexParseFile (lit "/docs")).site.title = lit "Other" ∧
    cexFsExists (pathJoin (lit "/docs") (lit "markrealm.config.yaml")) = true ∧
    cexParseFile (pathJoin (lit "/docs") (lit "markrealm.config.yaml")) = none ∧
    DEFAULT_CONFIG.site.title = lit "My Docs" := by decide

/-! ## Claims C6 and C10: link extraction -/

theorem mkExtractedLink_spec (href text : JStr) (hh : href ≠ []) (ht : text ≠ []) :
    ExtractedLinkSpec (mkExtractedLink href text) := by
  rw [mkExtractedLink]
  by_cases hint : ¬ jsStartsWith href (lit "http") = true ∧ ¬ jsStartsWith href (lit "//") = true
      ∧ ¬ jsStartsWith href (lit "mailto:") = true ∧ ¬ jsStartsWith href (lit "#") = true
  · rw [if_pos hint]
    refine ⟨⟨hh, ht⟩, ?_, ?_, ?_⟩
    · simp only [true_iff]
      exact ⟨by simpa using hint.1, by simpa using hint.2.1,
        by simpa using hint.2.2.1, by simpa using hint.2.2.2⟩
    · intro _
      refine ⟨rfl, ?_⟩
      intro h
      show (match (splitOnChar '#' href).get? 1 with
        | some h2 => if h2 ≠ [] then some h2 else none
        | none => none) = some h ↔ ((splitOnChar '#' href).get? 1 = some h ∧ h ≠ [])
      cases hp : (splitOnChar '#' href).get? 1 with
      | none => simp
      | some h2 =>
        by_cases hh2 : h2 = []
        · subst hh2
          simp
        · simp only [if_pos hh2, Option.some.injEq]
          refine ⟨fun he => ⟨he, ?_⟩, fun hc => hc.1⟩
          rw [← he]
          exact hh2
    · intro hfalse
      simp at hfalse
  · rw [if_neg hint]
    refine ⟨⟨hh, ht⟩, ?_, ?_, ?_⟩
    · simp only
      constructor
      · intro hfalse
        simp at hfalse
      · rintro ⟨h1, h2, h3, h4⟩
        exact absurd ⟨by simp [h1], by simp [h2], by simp [h3], by simp [h4]⟩ hint
    · intro hfalse
      simp at hfalse
    · intro _
      exact ⟨rfl, rfl⟩

mutual
/-- Every link `extractLinks` emits from a node satisfies
`ExtractedLinkSpec`. -/
theorem extractLinks_sound : ∀ (n : MarkNode), ∀ l ∈ extractLinks n, ExtractedLinkSpec l
  | .str _ => by
    intro l hl
    simp [extractLinks] at hl
  | .node ty href children => by
    intro l hl
    rw [extractLinks] at hl
    by_cases hty : ty = lit "link"
    · rw [if_pos hty] at hl
      by_cases hdeg : href.getD [] = [] ∨ extractTextContent (.node ty href children) = []
      · rw [if_pos hdeg] at hl
        cases hl
      · rw [if_neg hdeg] at hl
        rcases List.mem_cons.1 hl with rfl | hl
        · exact mkExtractedLink_spec _ _ (not_or.1 hdeg).1 (not_or.1 hdeg).2
        · exact extractLinksForest_sound children l hl
    · rw [if_neg hty] at hl
      exact extractLinksForest_sound children l hl
/-- Every link `extractLinks` emits from a forest satisfies
`ExtractedLinkSpec`. -/
theorem extractLinksForest_sound :
    ∀ (f : MarkForest), ∀ l ∈ extractLinksForest f, ExtractedLinkSpec l
  | .nil => by
    intro l hl
    simp [extractLinksForest] at hl
  | .cons n rest => by
    intro l hl
    rw [extractLinksForest] at hl
    rcases List.mem_append.1 hl with hl | hl
    · exact extractLinks_sound n l hl
    · exact extractLinksForest_sound rest l hl
end

/-- C6 (amended): every extracted link is classified by the four literal
prefix tests — `internal` exactly when the href starts with none of
`"http"`, `"//"`, `"mailto:"`, `"#"` (so a non-`http` scheme such as
`ftp:` counts as internal, and any href beginning with the characters
`http` counts as external); every link is internal or external; an
internal link carries `target` = the href up to the first `#` and a `hash`
exactly when the href carries a non-empty first fragment; an external link
carries neither field. -/
theorem extractLinks_classification (ast : MarkNode) (l : Link) (hl : l ∈ extractLinks ast) :
    (l.type = .internal ↔
      (jsStartsWith l.href (lit "http") = false ∧ jsStartsWith l.href (lit "//") = false ∧
        jsStartsWith l.href (lit "mailto:") = false ∧ jsStartsWith l.href (lit "#") = false)) ∧
    (l.type = .internal →
      l.target = some ((splitOnChar '#' l.href).headD []) ∧
        ∀ h, l.hash = some h ↔ ((splitOnChar '#' l.href).get? 1 = some h ∧ h ≠ [])) ∧
    (l.type = .external → l.target = none ∧ l.hash = none) ∧
    (l.type = .internal ∨ l.type = .external) := by
  obtain ⟨_, h1, h2, h3⟩ := extractLinks_sound ast l hl
  refine ⟨h1, h2, h3, ?_⟩
  cases l.type
  · exact Or.inl rfl
  · exact Or.inr rfl

/-- C6 witness: the classification applied to the concrete relative link
`guide/intro#setup`. -/
theorem extractLinks_classification_witness :
    sampleLink.type = .internal ∧ sampleLink.target = some (lit "guide/intro") ∧
      sampleLink.hash = some (lit "setup") := by
  have h := extractLinks_classification sampleLinkNode sampleLink (by decide)
  refine ⟨?_, ?_, ?_⟩
  · exact h.1.mpr (by decide)
  · have := (h.2.1 (h.1.mpr (by decide))).1
    rw [this]
    decide
  · exact ((h.2.1 (h.1.mpr (by decide))).2 (lit "setup")).mpr (by decide)

/-- C6 counterexample: the href `ftp://example.com` is an absolute URL with
a scheme, which the claim classifies external, but the code's literal
`"http"` prefix test classifies it internal. -/
theorem extractLinks_classification_counterexample :
    (extractLinks ftpLinkNode).map Link.type = [LinkType.internal] ∧
    specHasUrlScheme (lit "ftp://example.com") = true := by decide

/-! ## Claim C10 -/

theorem mem_linkStep {index : ContentIndex} {r : LinkCheckResult} {link l : Link}
    (h : l ∈ resultLinks (linkStep index r link)) : l ∈ resultLinks r ∨ l = link := by
  cases hty : link.type with
  | external =>
    simp only [linkStep, hty, resultLinks, List.mem_append, List.mem_singleton] at h ⊢
    tauto
  | internal =>
    by_cases hc : checkInternalLink link index
    · simp only [linkStep, hty, hc, if_true, resultLinks, List.mem_append,
        List.mem_singleton] at h ⊢
      tauto
    · simp only [linkStep, hty, hc, Bool.false_eq_true, if_false, resultLinks,
        List.mem_append, List.mem_singleton] at h ⊢
      tauto

theorem mem_foldl_linkStep {index : ContentIndex} {links : List Link} {l : Link} :
    ∀ r : LinkCheckResult, l ∈ resultLinks (links.foldl (linkStep index) r) →
      l ∈ resultLinks r ∨ l ∈ links := by
  induction links with
  | nil =>
    intro r h
    exact Or.inl h
  | cons x t ih =>
    intro r h
    rw [List.foldl_cons] at h
    rcases ih _ h with h' | h'
    · rcases mem_linkStep h' with h2 | h2
      · exact Or.inl h2
      · exact Or.inr (by simp [h2])
    · exact Or.inr (List.mem_cons_of_mem _ h')

theorem mem_checkInternalLinks {index : ContentIndex} {l : Link}
    (h : l ∈ resultLinks (checkInternalLinks index)) :
    ∃ d ∈ index.byRoute.values, l ∈ d.links := by
  rw [checkInternalLinks] at h
  have hgen : ∀ (docs : List DocMeta) (r : LinkCheckResult),
      l ∈ resultLinks (docs.foldl (fun r doc => doc.links.foldl (linkStep index) r) r) →
      l ∈ resultLinks r ∨ ∃ d ∈ docs, l ∈ d.links := by
    intro docs
    induction docs with
    | nil =>
      intro r h
      exact Or.inl h
    | cons doc t ih =>
      intro r h
      rw [List.foldl_cons] at h
      rcases ih _ h with h' | h'
      · rcases mem_foldl_linkStep _ h' with h2 | h2
        · exact Or.inl h2
        · exact Or.inr ⟨doc, by simp, h2⟩
      · obtain ⟨d, hd, hld⟩ := h'
        exact Or.inr ⟨d, List.mem_cons_of_mem _ hd, hld⟩
  rcases hgen index.byRoute.values ⟨[], [], []⟩ h with h' | h'
  · simp [resultLinks] at h'
  · exact h'

/-- C10: link extraction silently drops degenerate links — every link record
`extractLinks` emits has a non-empty href and non-empty text, and every
link the validator counts (valid, broken or external) comes from some
indexed document's `links`, so a dropped link is never counted. -/
theorem degenerate_links_dropped :
    (∀ (ast : MarkNode) (l : Link), l ∈ extractLinks ast → l.href ≠ [] ∧ l.text ≠ []) ∧
    (∀ (index : ContentIndex) (l : Link),
      (l ∈ (checkInternalLinks index).valid ∨ l ∈ (checkInternalLinks index).broken ∨
        l ∈ (checkInternalLinks index).external) →
      ∃ d ∈ index.byRoute.values, l ∈ d.links) := by
  constructor
  · intro ast l hl
    exact (extractLinks_sound ast l hl).1
  · intro index l hl
    apply mem_checkInternalLinks
    simp only [resultLinks, List.mem_append]
    tauto

/-- C10 witness: the guarantees applied to the concrete link node
`guide/intro#setup` and to a one-document index holding that link. -/
theorem degenerate_links_dropped_witness :
    (sampleLink.href ≠ [] ∧ sampleLink.text ≠ []) ∧
    ∃ d ∈ linkedIndex.byRoute.values, sampleLink ∈ d.links := by
  constructor
  · exact degenerate_links_dropped.1 sampleLinkNode sampleLink (by decide)
  · exact degenerate_links_dropped.2 linkedIndex sampleLink (by decide)

/-! ## Claim C7 -/

theorem extractFirst_perm {pred : SidebarItem → Bool} :
    ∀ {l : List SidebarItem} {x : SidebarItem} {rest : List SidebarItem},
      extractFirst pred l = some (x, rest) → l.Perm (x :: rest) := by
  intro l
  induction l with
  | nil => intro x rest h; cases h
  | cons y t ih =>
    intro x rest h
    rw [extractFirst] at h
    by_cases hy : pred y = true
    · rw [if_pos hy] at h
      have h1 : y = x ∧ t = rest := by
        injection h with h
        injection h with ha hb
        exact ⟨ha, hb⟩
      rw [← h1.1, ← h1.2]
    · rw [if_neg hy] at h
      cases he : extractFirst pred t with
      | none => rw [he] at h; cases h
      | some pr =>
        obtain ⟨x0, rest0⟩ := pr
        rw [he] at h
        have h' : some (x0, y :: rest0) = some (x, rest) := h
        injection h' with h''
        injection h'' with ha hb
        rw [← ha, ← hb]
        exact ((ih he).cons y).trans (List.Perm.swap x0 y rest0)

theorem literalStep_perm (acc : List SidebarItem × List SidebarItem) (p : JStr) :
    ((literalStep acc p).1 ++ (literalStep acc p).2).Perm (acc.1 ++ acc.2) := by
  rw [literalStep]
  by_cases hc : p.contains '*'
  · rw [if_pos hc]
  · rw [if_neg hc]
    cases he : extractFirst (literalPatternHits p) acc.2 with
    | none => exact List.Perm.refl _
    | some pr =>
      obtain ⟨item, rest2⟩ := pr
      have hp := extractFirst_perm he
      simp only
      rw [List.append_assoc, List.singleton_append]
      exact List.Perm.append_left acc.1 hp.symm

theorem globStep_perm (acc : List SidebarItem × List SidebarItem) (p : JStr) :
    ((globStep acc p).1 ++ (globStep acc p).2).Perm (acc.1 ++ acc.2) := by
  rw [globStep]
  by_cases hc : p.contains '*'
  · rw [if_pos hc]
    rw [List.partition_eq_filter_filter]
    simp only
    rw [List.append_assoc]
    exact List.Perm.append_left acc.1 (List.filter_append_perm _ acc.2)
  · rw [if_neg hc]

theorem consumeLiterals_perm (order : List JStr) :
    ∀ acc : List SidebarItem × List SidebarItem,
      ((consumeLiterals order acc).1 ++ (consumeLiterals order acc).2).Perm
        (acc.1 ++ acc.2) := by
  induction order with
  | nil => intro acc; exact List.Perm.refl _
  | cons p rest ih =>
    intro acc
    have hfold : consumeLiterals (p :: rest) acc = consumeLiterals rest (literalStep acc p) := by
      rw [consumeLiterals, consumeLiterals, List.foldl_cons]
    rw [hfold]
    exact (ih (literalStep acc p)).trans (literalStep_perm acc p)

theorem consumeGlobs_perm (order : List JStr) :
    ∀ acc : List SidebarItem × List SidebarItem,
      ((consumeGlobs order acc).1 ++ (consumeGlobs order acc).2).Perm
        (acc.1 ++ acc.2) := by
  induction order with
  | nil => intro acc; exact List.Perm.refl _
  | cons p rest ih =>
    intro acc
    have hfold : consumeGlobs (p :: rest) acc = consumeGlobs rest (globStep acc p) := by
      rw [consumeGlobs, consumeGlobs, List.foldl_cons]
    rw [hfold]
    exact (ih (globStep acc p)).trans (globStep_perm acc p)

/-- C7 (amended): when a configured order is supplied, ordering is applied
only to the top level, and every item consumed by a literal or glob pattern
is appended to the output unchanged — in particular the children of a
consumed directory keep their tree-build order and are NOT re-sorted; only
the items left unconsumed are sorted (recursively) by the no-order rule.
Formally: the output is a consumed prefix followed by the recursively
sorted remainder, where prefix and remainder together are a permutation of
the input items (taken as whole, unmodified records). -/
theorem applyOrdering_scope (tree : List SidebarItem) (order : List JStr) :
    ∃ consumed rest, applyOrdering tree order = consumed ++ sortTreeList rest ∧
      (consumed ++ rest).Perm tree := by
  refine ⟨(consumeGlobs order (consumeLiterals order ([], tree))).1,
    (consumeGlobs order (consumeLiterals order ([], tree))).2, rfl, ?_⟩
  refine (consumeGlobs_perm order _).trans ?_
  simpa using consumeLiterals_perm order ([], tree)

/-- C7 counterexample: the literal pattern `guide` consumes the `/guide`
directory; its children stay in build order `[b, a]`, while the no-order
rule would sort them to `[a, b]` — so children of a consumed directory are
not sorted, contrary to the claim. -/
theorem applyOrdering_scope_counterexample :
    applyOrdering [guideDir] [lit "guide"] = [guideDir] ∧
    guideDir.children = some (.cons leafB (.cons leafA .nil)) ∧
    sortTreeAlphabetically (.cons leafB (.cons leafA .nil)) =
      .cons leafA (.cons leafB .nil) := by decide

/-! ## Claim C5: string and path lemmas -/

theorem jsEndsWith_iff {s suf : JStr} : jsEndsWith s suf = true ↔ suf <:+ s := by
  rw [jsEndsWith, beq_iff_eq]
  constructor
  · intro h
    refine ⟨s.take (s.length - suf.length), ?_⟩
    conv_rhs => rw [← List.take_append_drop (s.length - suf.length) s]
    rw [h]
  · rintro ⟨t, rfl⟩
    have hlen : (t ++ suf).length - suf.length = t.length := by
      rw [List.length_append]
      omega
    rw [hlen, List.drop_left]

theorem suffix_of_suffix_length_le {l l₁ l₂ : JStr} (h1 : l₁ <:+ l) (h2 : l₂ <:+ l)
    (hle : l₁.length ≤ l₂.length) : l₁ <:+ l₂ := by
  obtain ⟨t1, rfl⟩ := h1
  obtain ⟨t2, ht2⟩ := h2
  refine ⟨l₂.take (l₂.length - l₁.length), ?_⟩
  have hlen : t2.length + l₂.length = t1.length + l₁.length := by
    have := congrArg List.length ht2
    simp only [List.length_append] at this
    omega
  have hdrop : l₂.drop (l₂.length - l₁.length) = l₁ := by
    have h3 : l₂.drop (l₂.length - l₁.length) = (t2 ++ l₂).drop (t2.length + (l₂.length - l₁.length)) := by
      rw [List.drop_append_eq_append_drop]
      simp
    rw [h3, ht2]
    have h4 : t2.length + (l₂.length - l₁.length) = t1.length := by omega
    rw [h4, List.drop_left]
  conv_rhs => rw [← List.take_append_drop (l₂.length - l₁.length) l₂]
  rw [hdrop]

theorem suffix_append_sep {ext : JStr} (hx : '/' ∉ ext) (xs ys : JStr) :
    ext <:+ (xs ++ '/' :: ys) ↔ ext <:+ ys := by
  constructor
  · intro h
    by_cases hle : ext.length ≤ ys.length
    · exact suffix_of_suffix_length_le h
        (⟨xs ++ ['/'], by simp⟩ : ys <:+ xs ++ '/' :: ys) hle
    · exfalso
      obtain ⟨t, ht⟩ := h
      have hlen : t.length + ext.length = xs.length + 1 + ys.length := by
        have := congrArg List.length ht
        simp only [List.length_append, List.length_cons] at this
        omega
    -- the separator position lies inside ext
      have hmem : '/' ∈ ext := by
        have hdrop : ext = (xs ++ '/' :: ys).drop t.length := by
          rw [← ht, List.drop_left]
        have htle : t.length ≤ xs.length := by omega
        rw [List.drop_append_eq_append_drop] at hdrop
        have hz : t.length - xs.length = 0 := by omega
        rw [hz] at hdrop
        simp only [List.drop_zero] at hdrop
        rw [hdrop]
        exact List.mem_append.2 (Or.inr (List.mem_cons_self _ _))
      exact hx hmem
  · intro h
    exact h.trans ⟨xs ++ ['/'], by simp⟩

theorem joinChar_ne_nil {ss : List JStr} (hne : ss ≠ [])
    (hclean : ∀ s ∈ ss, s ≠ []) : joinChar '/' ss ≠ [] := by
  cases ss with
  | nil => exact absurd rfl hne
  | cons a t =>
    cases t with
    | nil =>
      rw [joinChar]
      exact hclean a (by simp)
    | cons b t2 =>
      rw [joinChar]
      simp

theorem joinChar_concat {ss : List JStr} (hne : ss ≠ []) (x : JStr) :
    joinChar '/' (ss ++ [x]) = joinChar '/' ss ++ '/' :: x := by
  induction ss with
  | nil => exact absurd rfl hne
  | cons a t ih =>
    cases t with
    | nil => rw [joinChar]; rfl
    | cons b t2 =>
      have ih2 := ih (by simp)
      have e1 : joinChar '/' ((a :: b :: t2) ++ [x]) =
          a ++ '/' :: joinChar '/' ((b :: t2) ++ [x]) := by
        rw [List.cons_append]
        rw [show (b :: t2) ++ [x] = b :: (t2 ++ [x]) from rfl]
        rw [joinChar]
      rw [e1, ih2, joinChar, List.append_assoc]
      rfl

theorem suffix_joinChar {ext : JStr} (hx : '/' ∉ ext) :
    ∀ (ss : List JStr), ss ≠ [] →
      (ext <:+ joinChar '/' ss ↔ ext <:+ ss.getLastD []) := by
  intro ss
  induction ss with
  | nil => intro h; exact absurd rfl h
  | cons a t ih =>
    intro _
    cases t with
    | nil => rw [joinChar, List.getLastD_cons, List.getLastD_nil]
    | cons b t2 =>
      rw [joinChar, suffix_append_sep hx, List.getLastD_cons]
      exact ih (by simp)

theorem take_len_add (a b : JStr) (n : Nat) : (a ++ b).take (a.length + n) = a ++ b.take n := by
  induction a with
  | nil => simp
  | cons c t ih =>
    simp only [List.cons_append, List.length_cons, List.take]
    rw [Nat.succ_add, List.take_succ_cons, ih]

theorem jsEndsWith_eq_sep {suf : JStr} (hx : '/' ∉ suf) (J s : JStr) :
    jsEndsWith (J ++ '/' :: s) suf = jsEndsWith s suf := by
  have h1 : jsEndsWith (J ++ '/' :: s) suf = true ↔ jsEndsWith s suf = true := by
    rw [jsEndsWith_iff, jsEndsWith_iff]
    exact suffix_append_sep hx J s
  cases h2 : jsEndsWith (J ++ '/' :: s) suf <;> cases h3 : jsEndsWith s suf
  · rfl
  · have h4 := h1.mpr h3
    rw [h2] at h4
    simp at h4
  · have h4 := h1.mp h2
    rw [h3] at h4
    simp at h4
  · rfl

theorem stripMarkupExt_append (J s : JStr) :
    stripMarkupExt (J ++ '/' :: s) = J ++ '/' :: stripMarkupExt s := by
  rw [stripMarkupExt, stripMarkupExt,
    jsEndsWith_eq_sep (by decide) J s, jsEndsWith_eq_sep (by decide) J s]
  by_cases h1 : jsEndsWith s (lit ".mdoc") = true
  · rw [if_pos h1, if_pos h1]
    have hlen : 5 ≤ s.length := by
      have := (jsEndsWith_iff.1 h1).length_le
      simpa using this
    have e1 : (J ++ '/' :: s).length - 5 = (J ++ ['/']).length + (s.length - 5) := by
      simp only [List.length_append, List.length_cons, List.length_nil]
      omega
    have e2 : J ++ '/' :: s = (J ++ ['/']) ++ s := by simp
    rw [e1, e2, take_len_add]
    simp
  · rw [if_neg h1, if_neg h1]
    by_cases h2 : jsEndsWith s (lit ".md") = true
    · rw [if_pos h2, if_pos h2]
      have hlen : 3 ≤ s.length := by
        have := (jsEndsWith_iff.1 h2).length_le
        simpa using this
      have e1 : (J ++ '/' :: s).length - 3 = (J ++ ['/']).length + (s.length - 3) := by
        simp only [List.length_append, List.length_cons, List.length_nil]
        omega
      have e2 : J ++ '/' :: s = (J ++ ['/']) ++ s := by simp
      rw [e1, e2, take_len_add]
      simp
    · rw [if_neg h2, if_neg h2]

theorem stripMarkupExt_subset {s : JStr} {c : Char} (h : c ∈ stripMarkupExt s) : c ∈ s := by
  rw [stripMarkupExt] at h
  by_cases h1 : jsEndsWith s (lit ".mdoc") = true
  · rw [if_pos h1] at h
    exact List.take_subset _ _ h
  · rw [if_neg h1] at h
    by_cases h2 : jsEndsWith s (lit ".md") = true
    · rw [if_pos h2] at h
      exact List.take_subset _ _ h
    · rw [if_neg h2] at h
      exact h

theorem splitOnChar_ne_nil (sep : Char) (s : JStr) : splitOnChar sep s ≠ [] := by
  cases s with
  | nil => simp [splitOnChar]
  | cons c rest =>
    rw [splitOnChar]
    cases h : splitOnChar sep rest with
    | nil => simp
    | cons h2 t2 =>
      by_cases hc : c = sep
      · simp [hc]
      · simp [hc]

theorem splitOnChar_no_sep {sep : Char} {s : JStr} (h : sep ∉ s) :
    splitOnChar sep s = [s] := by
  induction s with
  | nil => rfl
  | cons c rest ih =>
    have hc : c ≠ sep := fun hc => h (hc ▸ List.mem_cons_self c rest)
    have hr : sep ∉ rest := fun hr => h (List.mem_cons_of_mem c hr)
    rw [splitOnChar, ih hr]
    simp [hc]

theorem splitOnChar_sep_append {sep : Char} {s : JStr} (h : sep ∉ s) (r : JStr) :
    splitOnChar sep (s ++ sep :: r) = s :: splitOnChar sep r := by
  induction s with
  | nil =>
    rw [List.nil_append, splitOnChar]
    cases hr : splitOnChar sep r with
    | nil => exact absurd hr (splitOnChar_ne_nil sep r)
    | cons h2 t2 => simp
  | cons c rest ih =>
    have hc : c ≠ sep := fun hc => h (hc ▸ List.mem_cons_self c rest)
    have hr : sep ∉ rest := fun hr => h (List.mem_cons_of_mem c hr)
    rw [List.cons_append, splitOnChar, ih hr]
    simp [hc]

theorem splitOnChar_joinChar :
    ∀ {ss : List JStr}, ss ≠ [] → (∀ s ∈ ss, '/' ∉ s) →
      splitOnChar '/' (joinChar '/' ss) = ss := by
  intro ss
  induction ss with
  | nil => intro h _; exact absurd rfl h
  | cons a t ih =>
    intro _ hclean
    cases t with
    | nil =>
      rw [joinChar]
      exact splitOnChar_no_sep (hclean a (by simp))
    | cons b t2 =>
      rw [joinChar, splitOnChar_sep_append (hclean a (by simp))]
      rw [ih (by simp) (fun s hs => hclean s (List.mem_cons_of_mem a hs))]

theorem pathBasename_joinChar {ss : List JStr} (hne : ss ≠ [])
    (hclean : ∀ s ∈ ss, s ≠ [] ∧ '/' ∉ s) :
    pathBasename (joinChar '/' ss) = ss.getLastD [] := by
  rw [pathBasename, splitOnChar_joinChar hne (fun s hs => (hclean s hs).2)]
  rw [List.filter_eq_self.2 (fun s hs => by simpa using (hclean s hs).1)]

theorem getLast?_append_right (a : JStr) {b : JStr} (hb : b ≠ []) :
    (a ++ b).getLast? = b.getLast? := by
  induction a with
  | nil => rfl
  | cons c t ih =>
    rw [List.cons_append, List.getLast?_cons, ih]
    cases hb2 : b.getLast? with
    | none =>
      rw [List.getLast?_eq_none_iff] at hb2
      exact absurd hb2 hb
    | some x => rfl

theorem getLast?_mem : ∀ {l : JStr} {c : Char}, l.getLast? = some c → c ∈ l := by
  intro l
  induction l with
  | nil => intro c h; cases h
  | cons x t ih =>
    intro c h
    rw [List.getLast?_cons] at h
    injection h with h
    cases hg : t.getLast? with
    | none =>
      rw [hg] at h
      simp only [Option.getD_none] at h
      simp [← h]
    | some z =>
      rw [hg] at h
      simp only [Option.getD_some] at h
      rw [h] at hg
      exact List.mem_cons_of_mem x (ih hg)

theorem joinChar_getLast?_ne_slash :
    ∀ {ss : List JStr}, ss ≠ [] → (∀ s ∈ ss, s ≠ [] ∧ '/' ∉ s) →
      ∀ c, (joinChar '/' ss).getLast? = some c → c ≠ '/' := by
  intro ss
  induction ss with
  | nil => intro h; exact absurd rfl h
  | cons a t ih =>
    intro _ hclean c hc
    cases t with
    | nil =>
      rw [joinChar] at hc
      intro heq
      exact (hclean a (by simp)).2 (heq ▸ getLast?_mem hc)
    | cons b t2 =>
      rw [joinChar] at hc
      have hjne : joinChar '/' (b :: t2) ≠ [] :=
        joinChar_ne_nil (by simp) (fun s hs => (hclean s (List.mem_cons_of_mem a hs)).1)
      rw [getLast?_append_right a (by simp)] at hc
      have hx : ('/' :: joinChar '/' (b :: t2)) = ['/'] ++ joinChar '/' (b :: t2) := rfl
      rw [hx, getLast?_append_right ['/'] hjne] at hc
      exact ih (by simp) (fun s hs => hclean s (List.mem_cons_of_mem a hs)) c hc

theorem dropWhile_ne_sep_append {b : JStr} :
    ∀ (a : JStr), (∀ x ∈ a, x ≠ '/') →
      (a ++ '/' :: b).dropWhile (· ≠ '/') = '/' :: b := by
  intro a
  induction a with
  | nil =>
    intro _
    rw [List.nil_append, List.dropWhile_cons]
    simp
  | cons c t ih =>
    intro h
    rw [List.cons_append, List.dropWhile_cons]
    have hc : c ≠ '/' := h c (by simp)
    rw [if_pos (by simp [hc])]
    exact ih (fun x hx => h x (List.mem_cons_of_mem c hx))

theorem pathDirname_no_slash {s : JStr} (hx : '/' ∉ s) : pathDirname s = lit "." := by
  have hroot : (s.take 1 == lit "/") = false := by
    cases s with
    | nil => rfl
    | cons c t =>
      have hc : c ≠ '/' := fun h => hx (h ▸ List.mem_cons_self c t)
      simp [List.take, lit, hc]
  have h1 : s.reverse.dropWhile (· = '/') = s.reverse := by
    cases hsr : s.reverse with
    | nil => rfl
    | cons c cs =>
      have hc : c ∈ s := by
        rw [← List.mem_reverse, hsr]
        simp
      have hcne : ¬ (c = '/') := fun h => hx (h ▸ hc)
      rw [List.dropWhile_cons]
      simp [hcne]
  have h2 : s.reverse.dropWhile (· ≠ '/') = [] := by
    rw [List.dropWhile_eq_nil_iff]
    intro x hxr
    have hmem : x ∈ s := List.mem_reverse.1 hxr
    have hne : x ≠ '/' := fun h => hx (h ▸ hmem)
    simp [hne]
  simp only [pathDirname, h1, h2, hroot]
  simp

theorem pathDirname_append_seg {J s : JStr} (hs : s ≠ []) (hsx : '/' ∉ s) (hJ : J ≠ [])
    (hJh : ∀ c, J.head? = some c → c ≠ '/') :
    pathDirname (J ++ '/' :: s) = J := by
  have hrev : (J ++ '/' :: s).reverse = s.reverse ++ '/' :: J.reverse := by
    rw [List.reverse_append, List.reverse_cons, List.append_assoc]
    rfl
  have h1 : ((J ++ '/' :: s).reverse).dropWhile (· = '/') = s.reverse ++ '/' :: J.reverse := by
    rw [hrev]
    obtain ⟨c, cs, hcs⟩ : ∃ c cs, s.reverse = c :: cs := by
      cases hsr : s.reverse with
      | nil => exact absurd (List.reverse_eq_nil_iff.1 hsr) hs
      | cons c cs => exact ⟨c, cs, rfl⟩
    rw [hcs, List.cons_append, List.dropWhile_cons]
    have hc : c ∈ s := by
      rw [← List.mem_reverse, hcs]
      simp
    have hcne : ¬ (c = '/') := fun h => hsx (h ▸ hc)
    simp [hcne, ← hcs]
  have h2 : (s.reverse ++ '/' :: J.reverse).dropWhile (· ≠ '/') = '/' :: J.reverse :=
    dropWhile_ne_sep_append s.reverse
      (fun x hxr h => hsx (h ▸ List.mem_reverse.1 hxr))
  obtain ⟨c0, J0, hJ0⟩ : ∃ c0 J0, J = c0 :: J0 := by
    cases J with
    | nil => exact absurd rfl hJ
    | cons c0 J0 => exact ⟨c0, J0, rfl⟩
  have hroot : ((J ++ '/' :: s).take 1 == lit "/") = false := by
    rw [hJ0, List.cons_append]
    have hc0 : c0 ≠ '/' := hJh c0 (by rw [hJ0]; rfl)
    simp [List.take, lit, hc0]
  have hJrev : J.reverse ≠ [] := by
    rw [hJ0]
    simp
  simp only [pathDirname, h1, h2, hroot]
  simp [hJrev]

theorem getLastD_mem {α : Type} : ∀ {l : List α} {d : α}, l ≠ [] → l.getLastD d ∈ l := by
  intro l
  induction l with
  | nil => intro d h; exact absurd rfl h
  | cons x t ih =>
    intro d _
    rw [List.getLastD_cons]
    cases ht : t with
    | nil => simp
    | cons y t2 =>
      rw [← ht]
      have : t.getLastD x ∈ t := ih (by rw [ht]; simp)
      exact List.mem_cons_of_mem x this

theorem joinChar_head?_ne_slash {ss : List JStr} (hne : ss ≠ [])
    (hclean : ∀ s ∈ ss, s ≠ [] ∧ '/' ∉ s) :
    ∀ c, (joinChar '/' ss).head? = some c → c ≠ '/' := by
  intro c hc
  cases ss with
  | nil => exact absurd rfl hne
  | cons a t =>
    obtain ⟨c0, a0, ha⟩ : ∃ c0 a0, a = c0 :: a0 := by
      cases ha : a with
      | nil => exact absurd ha (hclean a (by simp)).1
      | cons c0 a0 => exact ⟨c0, a0, rfl⟩
    have hc0 : c0 ∈ a := by rw [ha]; simp
    have hc0s : c0 ≠ '/' := fun h => (hclean a (by simp)).2 (h ▸ hc0)
    cases t with
    | nil =>
      rw [joinChar, ha] at hc
      injection hc with hc
      rw [← hc]
      exact hc0s
    | cons b t2 =>
      rw [joinChar, ha, List.cons_append] at hc
      injection hc with hc
      rw [← hc]
      exact hc0s

theorem startsWith_slash (x : JStr) : jsStartsWith ('/' :: x) (lit "/") = true := by
  rw [jsStartsWith]
  rfl

theorem suffix_slash_cons {ext : JStr} (hx : '/' ∉ ext) (ys : JStr) :
    ext <:+ ('/' :: ys) ↔ ext <:+ ys := by
  have h := suffix_append_sep hx [] ys
  rwa [List.nil_append] at h

theorem generateRoute_normal (root p : JStr) (init : List JStr) (L : JStr)
    (hrel : pathRelative root p = joinChar '/' (init ++ [L]))
    (hclean : ∀ s ∈ init ++ [L], s ≠ [] ∧ '/' ∉ s ∧ s ≠ lit ".")
    (hinit : ∀ s ∈ init, ¬ lit ".md" <:+ s ∧ ¬ lit ".mdoc" <:+ s)
    (hlast1 : stripMarkupExt L ≠ [])
    (hlast2 : ¬ lit ".md" <:+ stripMarkupExt L)
    (hlast3 : ¬ lit ".mdoc" <:+ stripMarkupExt L) :
    jsStartsWith (generateRoute p root) (lit "/") = true ∧
    (generateRoute p root ≠ lit "/" → (generateRoute p root).getLast? ≠ some '/') ∧
    ¬ lit ".md" <:+ generateRoute p root ∧
    ¬ lit ".mdoc" <:+ generateRoute p root := by
  have hLclean := hclean L (by simp)
  have hinitclean : ∀ s ∈ init, s ≠ [] ∧ '/' ∉ s :=
    fun s hs => ⟨(hclean s (by simp [hs])).1, (hclean s (by simp [hs])).2.1⟩
  have hL'x : '/' ∉ stripMarkupExt L := fun hm => hLclean.2.1 (stripMarkupExt_subset hm)
  have hcleanL' : ∀ s ∈ init ++ [stripMarkupExt L], s ≠ [] ∧ '/' ∉ s := by
    intro s hs
    rcases List.mem_append.1 hs with hs | hs
    · exact hinitclean s hs
    · rw [List.mem_singleton] at hs
      rw [hs]
      exact ⟨hlast1, hL'x⟩
  have hstrip : stripMarkupExt (joinChar '/' (init ++ [L])) =
      joinChar '/' (init ++ [stripMarkupExt L]) := by
    cases hi : init with
    | nil => simp [joinChar]
    | cons a t =>
      have hine : init ≠ [] := by rw [hi]; simp
      rw [← hi, joinChar_concat hine L, joinChar_concat hine (stripMarkupExt L),
        stripMarkupExt_append]
  simp only [generateRoute, hrel, hstrip]
  rw [pathBasename_joinChar (by simp) hcleanL', List.getLastD_concat]
  by_cases hidx : stripMarkupExt L = lit "index"
  · rw [if_pos hidx]
    cases hi : init with
    | nil =>
      have hd : pathDirname (joinChar '/' ([] ++ [stripMarkupExt L])) = lit "." := by
        simp only [List.nil_append, joinChar]
        exact pathDirname_no_slash hL'x
      rw [hd, if_pos rfl]
      exact ⟨by decide, fun h => absurd rfl h, by decide, by decide⟩
    | cons a t =>
      have hine : init ≠ [] := by rw [hi]; simp
      have hJne : joinChar '/' init ≠ [] :=
        joinChar_ne_nil hine (fun s hs => (hinitclean s hs).1)
      have hd : pathDirname (joinChar '/' (init ++ [stripMarkupExt L])) = joinChar '/' init := by
        rw [joinChar_concat hine _]
        exact pathDirname_append_seg hlast1 hL'x hJne
          (joinChar_head?_ne_slash hine hinitclean)
      rw [← hi, hd]
      have hdot : joinChar '/' init ≠ lit "." := by
        rw [hi]
        cases t with
        | nil =>
          rw [joinChar]
          exact (hclean a (by simp [hi])).2.2
        | cons b t2 =>
          rw [joinChar]
          intro hcontra
          have hsl : '/' ∈ lit "." := by
            rw [← hcontra]
            simp
          simp [lit] at hsl
      rw [if_neg hdot]
      refine ⟨startsWith_slash _, ?_, ?_, ?_⟩
      · intro _ hsome
        have hx : ('/' :: joinChar '/' init) = ['/'] ++ joinChar '/' init := rfl
        rw [hx, getLast?_append_right ['/'] hJne] at hsome
        exact joinChar_getLast?_ne_slash hine hinitclean '/' hsome rfl
      · rw [suffix_slash_cons (by decide), suffix_joinChar (by decide) init hine]
        exact (hinit _ (getLastD_mem hine)).1
      · rw [suffix_slash_cons (by decide), suffix_joinChar (by decide) init hine]
        exact (hinit _ (getLastD_mem hine)).2
  · rw [if_neg hidx]
    have hTne : joinChar '/' (init ++ [stripMarkupExt L]) ≠ [] :=
      joinChar_ne_nil (by simp) (fun s hs => (hcleanL' s hs).1)
    refine ⟨startsWith_slash _, ?_, ?_, ?_⟩
    · intro _ hsome
      have hx : ('/' :: joinChar '/' (init ++ [stripMarkupExt L])) =
          ['/'] ++ joinChar '/' (init ++ [stripMarkupExt L]) := rfl
      rw [hx, getLast?_append_right ['/'] hTne] at hsome
      exact joinChar_getLast?_ne_slash (by simp) hcleanL' '/' hsome rfl
    · rw [suffix_slash_cons (by decide), suffix_joinChar (by decide) _ (by simp),
        List.getLastD_concat]
      exact hlast2
    · rw [suffix_slash_cons (by decide), suffix_joinChar (by decide) _ (by simp),
        List.getLastD_concat]
      exact hlast3

/-- C5 (amended): the three concrete route equations hold, and for every
path under the root — written as a root-relative segment list `init ++ [L]`
of non-empty, slash-free, non-`.` segments — whose directory segments do
not themselves end in a markup extension and whose extension-stripped
filename is non-empty and does not still end in a markup extension, the
derived route starts with `/`, never ends in a trailing slash except the
root route `/`, and never ends in `.md` or `.mdoc`.  (The unrestricted
guarantee fails: a doubled extension such as `a.md.md` leaves `.md` in the
route.) -/
theorem generateRoute_spec :
    (generateRoute (lit "/r/index.md") (lit "/r") = lit "/" ∧
      generateRoute (lit "/r/guide/index.md") (lit "/r") = lit "/guide" ∧
      generateRoute (lit "/r/guide/x.mdoc") (lit "/r") = lit "/guide/x") ∧
    (∀ root p : JStr, ∀ init : List JStr, ∀ L : JStr,
      pathRelative root p = joinChar '/' (init ++ [L]) →
      (∀ s ∈ init ++ [L], s ≠ [] ∧ '/' ∉ s ∧ s ≠ lit ".") →
      (∀ s ∈ init, ¬ lit ".md" <:+ s ∧ ¬ lit ".mdoc" <:+ s) →
      stripMarkupExt L ≠ [] →
      ¬ lit ".md" <:+ stripMarkupExt L →
      ¬ lit ".mdoc" <:+ stripMarkupExt L →
      jsStartsWith (generateRoute p root) (lit "/") = true ∧
      (generateRoute p root ≠ lit "/" → (generateRoute p root).getLast? ≠ some '/') ∧
      ¬ lit ".md" <:+ generateRoute p root ∧
      ¬ lit ".mdoc" <:+ generateRoute p root) :=
  ⟨by refine ⟨by decide, by decide, by decide⟩,
    fun root p init L hrel hclean hinit h1 h2 h3 =>
      generateRoute_normal root p init L hrel hclean hinit h1 h2 h3⟩

/-- C5 witness: the normal form instantiated at `/r/guide/x.mdoc` under
root `/r` (relative segments `guide`, `x.mdoc`). -/
theorem generateRoute_spec_witness :
    jsStartsWith (generateRoute (lit "/r/guide/x.mdoc") (lit "/r")) (lit "/") = true ∧
    (generateRoute (lit "/r/guide/x.mdoc") (lit "/r") ≠ lit "/" →
      (generateRoute (lit "/r/guide/x.mdoc") (lit "/r")).getLast? ≠ some '/') ∧
    ¬ lit ".md" <:+ generateRoute (lit "/r/guide/x.mdoc") (lit "/r") ∧
    ¬ lit ".mdoc" <:+ generateRoute (lit "/r/guide/x.mdoc") (lit "/r") :=
  generateRoute_spec.2 (lit "/r") (lit "/r/guide/x.mdoc") [lit "guide"] (lit "x.mdoc")
    (by decide) (by decide) (by decide) (by decide) (by decide) (by decide)

/-- C5 counterexample: the doubled extension `a.md.md` derives the route
`/a.md`, which still contains (indeed ends in) the markup extension,
contradicting the claim that routes never contain it. -/
theorem generateRoute_counterexample :
    generateRoute (lit "/r/a.md.md") (lit "/r") = lit "/a.md" ∧
    jsEndsWith (generateRoute (lit "/r/a.md.md") (lit "/r")) (lit ".md") = true := by decide

/-! ## Sanity examples -/

example : generateRoute (lit "/r/index.md") (lit "/r") = lit "/" := by decide
example : generateRoute (lit "/r/guide/getting-started.md") (lit "/r") =
    lit "/guide/getting-started" := by decide
example : specHasUrlScheme (lit "ftp://example.com") = true := by decide
example : specHasUrlScheme (lit "https://a") = true := by decide
example : specHasUrlScheme (lit "./a/b") = false := by decide
example : specHasUrlScheme (lit "guide/intro") = false := by decide
example : checkInternalLink
    { href := lit "/guide#missing", text := lit "x", type := .internal
      target := some (lit "/guide"), hash := some (lit "missing") } anchorIndex = false := by
  decide
example : checkInternalLink
    { href := lit "/guide/", text := lit "x", type := .internal
      target := some (lit "/guide/") } anchorIndex = true := by decide
example : checkInternalLink
    { href := lit "x", text := lit "x", type := .internal, target := some [] } anchorIndex =
    false := by decide
